import Mathlib

/-!
Verification of the mindmap tree/history core.

The definitions below are a shallow embedding of the TypeScript sources:
  * the `useMindMap` hook (tree store, bounded undo/redo history),
  * the renderer-side helpers `getVisibleNodes`, `normalizeMindMapNode`,
    `applyLoadedMindMap`,
  * the vertical collision-resolution stage of the layout engine
    (`resolveCollisions` / `adjustSiblings` in the mindmap component).

JavaScript deep copies (`JSON.parse(JSON.stringify(x))`) are identities on
immutable Lean values, so "deep copy" is the value itself and "deep equality"
is `=`.  Fresh uuids are passed in explicitly as `newId` arguments.
-/

/-- A node of the mindmap tree.  `icon` is a plain string drawn from the
`NODE_ICON_VALUES` enumeration; `x`/`y` are screen coordinates (rationals,
standing in for JS numbers). -/
structure MindMapNode where
  id : String
  text : String
  x : ℚ
  y : ℚ
  color : String
  children : List MindMapNode
  collapsed : Bool
  icon : String
  manualPosition : Bool
deriving Repr

/-- The fixed icon enumeration from `types/mindmap.ts`. -/
def NODE_ICON_VALUES : List String :=
  ["none", "idea", "important", "question", "check", "warning", "note"]

/-- Color palette for depth levels (`LEVEL_COLORS` in the hook). -/
def LEVEL_COLORS : List String :=
  ["#FFE5B4", "#E3F2FD", "#F3E5F5", "#2E7D32"]

/-- `LEVEL_COLORS[Math.min(depth, LEVEL_COLORS.length - 1)]`.  Every call
site passes a non-negative depth (the looked-up node exists), so the
clamping `.toNat` never fires on a negative index. -/
def getColorForDepth (depth : Int) : String :=
  LEVEL_COLORS.getD (min depth ((LEVEL_COLORS.length : Int) - 1)).toNat ""

/-- `createInitialNode`, with the fresh uuid supplied as `rootId`. -/
def createInitialNode (rootId : String) : MindMapNode :=
  { id := rootId, text := "Root", x := 0, y := 0, color := getColorForDepth 0,
    children := [], collapsed := false, icon := "none", manualPosition := false }

mutual
/-- All nodes of the subtree rooted at `n`, in pre-order. -/
def subtreeNodes (n : MindMapNode) : List MindMapNode :=
  n :: subtreeNodesL n.children
termination_by sizeOf n
decreasing_by cases n; simp; try omega
def subtreeNodesL : List MindMapNode → List MindMapNode
  | [] => []
  | c :: cs => subtreeNodes c ++ subtreeNodesL cs
termination_by l => sizeOf l
decreasing_by all_goals (simp; try omega)
end

/-- The ids of all nodes of the subtree rooted at `t`. -/
def treeIds (t : MindMapNode) : List String :=
  (subtreeNodes t).map (fun n => n.id)

mutual
/-- `findNodeById(node, id)`: the node itself if its id matches, otherwise
the first match found in a depth-first walk of the children. -/
def findNodeById (node : MindMapNode) (i : String) : Option MindMapNode :=
  if node.id = i then some node else findNodeByIdL node.children i
termination_by sizeOf node
decreasing_by cases node; simp; try omega
def findNodeByIdL : List MindMapNode → String → Option MindMapNode
  | [], _ => none
  | c :: cs, i =>
    match findNodeById c i with
    | some found => some found
    | none => findNodeByIdL cs i
termination_by l => sizeOf l
decreasing_by all_goals (simp; try omega)
end

mutual
/-- `findParentNode(node, childId)`: walks the children in order; a child
whose id matches makes the current node the parent, otherwise the search
recurses fully into that child before moving to the next sibling. -/
def findParentNode (node : MindMapNode) (childId : String) : Option MindMapNode :=
  findParentNodeL node node.children childId
termination_by sizeOf node
decreasing_by cases node; simp; try omega
def findParentNodeL (self : MindMapNode) :
    List MindMapNode → String → Option MindMapNode
  | [], _ => none
  | c :: cs, i =>
    if c.id = i then some self
    else
      match findParentNode c i with
      | some found => some found
      | none => findParentNodeL self cs i
termination_by l => sizeOf l
decreasing_by all_goals (simp; try omega)
end

mutual
/-- `getNodeDepth(root, nodeId, currentDepth)`: depth of the first node
with the given id in a depth-first walk, `-1` if absent. -/
def getNodeDepth (root : MindMapNode) (nodeId : String) (currentDepth : Int) : Int :=
  if root.id = nodeId then currentDepth
  else getNodeDepthL root.children nodeId (currentDepth + 1)
termination_by sizeOf root
decreasing_by cases root; simp; try omega
def getNodeDepthL : List MindMapNode → String → Int → Int
  | [], _, _ => -1
  | c :: cs, i, d =>
    let depth := getNodeDepth c i d
    if depth ≠ -1 then depth else getNodeDepthL cs i d
termination_by l => sizeOf l
decreasing_by all_goals (simp; try omega)
end

mutual
/-- Apply `f` to the first node (in `findNodeById` order) whose id is `i`,
leaving the rest of the tree unchanged.  This models the JS pattern
`const node = findNodeById(copy, id); mutate(node)`: the mutation lands on
the first depth-first match. -/
def modifyFirst (f : MindMapNode → MindMapNode) (i : String) (n : MindMapNode) :
    MindMapNode :=
  if n.id = i then f n else { n with children := modifyFirstL f i n.children }
termination_by sizeOf n
decreasing_by cases n; simp; try omega
def modifyFirstL (f : MindMapNode → MindMapNode) (i : String) :
    List MindMapNode → List MindMapNode
  | [] => []
  | c :: cs =>
    if (findNodeById c i).isSome then modifyFirst f i c :: cs
    else c :: modifyFirstL f i cs
termination_by l => sizeOf l
decreasing_by all_goals (simp; try omega)
end

mutual
/-- The `applyCollapse` closure of `setNodeCollapsed`: set the flag on the
node and, when `deep`, on every descendant. -/
def applyCollapse (collapsed deep : Bool) (n : MindMapNode) : MindMapNode :=
  { n with collapsed := collapsed,
           children := if deep then applyCollapseL collapsed deep n.children
                       else n.children }
termination_by sizeOf n
decreasing_by cases n; simp; try omega
def applyCollapseL (collapsed deep : Bool) : List MindMapNode → List MindMapNode
  | [] => []
  | c :: cs => applyCollapse collapsed deep c :: applyCollapseL collapsed deep cs
termination_by l => sizeOf l
decreasing_by all_goals (simp; try omega)
end

mutual
/-- The `collapseDescendants` closure of `collapseAll`: every child is
collapsed and recursed into (the node itself is left alone). -/
def collapseDescendants (n : MindMapNode) : MindMapNode :=
  { n with children := collapseDescendantsL n.children }
termination_by sizeOf n
decreasing_by cases n; simp; try omega
def collapseDescendantsL : List MindMapNode → List MindMapNode
  | [] => []
  | c :: cs =>
    collapseDescendants { c with collapsed := true } :: collapseDescendantsL cs
termination_by l => sizeOf l
decreasing_by all_goals ((try simp); (try cases c); (try simp); (try omega))
end

mutual
/-- The `expandDescendants` closure of `expandAll`: clear `collapsed` on the
node and every descendant. -/
def expandDescendants (n : MindMapNode) : MindMapNode :=
  { n with collapsed := false, children := expandDescendantsL n.children }
termination_by sizeOf n
decreasing_by cases n; simp; try omega
def expandDescendantsL : List MindMapNode → List MindMapNode
  | [] => []
  | c :: cs => expandDescendants c :: expandDescendantsL cs
termination_by l => sizeOf l
decreasing_by all_goals (simp; try omega)
end

/-- The splice of `addSiblingNode` on the children of the first parent found
by `findParentNode`: walking a sibling list, a direct id match inserts the
new node right after it; otherwise the walk descends into the child that
contains the id as `findParentNode` would, leaving later siblings alone.
Siblings passed over cannot match the id (the walk would have stopped), so
acting on the suffix equals `splice(currentIndex + 1, 0, newNode)` on the
whole child array. -/
def addSiblingWalk (nn : MindMapNode) (i : String) :
    List MindMapNode → List MindMapNode
  | [] => []
  | c :: cs =>
    if c.id = i then c :: nn :: cs
    else if (findParentNode c i).isSome then
      { c with children := addSiblingWalk nn i c.children } :: cs
    else c :: addSiblingWalk nn i cs
termination_by l => sizeOf l
decreasing_by all_goals ((try simp); (try cases c); (try simp); (try omega))

/-- The removal of `deleteNode` on the children of the first parent found by
`findParentNode`: a direct id match filters the sibling array (siblings
already passed cannot match, so filtering the suffix equals
`parent.children.filter(child.id !== nodeId)` on the whole array); otherwise
the walk descends like `findParentNode`. -/
def deleteWalk (i : String) : List MindMapNode → List MindMapNode
  | [] => []
  | c :: cs =>
    if c.id = i then (c :: cs).filter (fun x => x.id ≠ i)
    else if (findParentNode c i).isSome then
      { c with children := deleteWalk i c.children } :: cs
    else c :: deleteWalk i cs
termination_by l => sizeOf l
decreasing_by all_goals ((try simp); (try cases c); (try simp); (try omega))

/-- User preferences (theme, font).  Their values are irrelevant to the
claims; only that operations leave them unchanged matters. -/
structure MindMapPreferences where
  theme : String
  fontFamily : String
  fontSize : ℚ
deriving Repr, DecidableEq

/-- `DEFAULT_PREFERENCES` (the font-family string is abbreviated). -/
def DEFAULT_PREFERENCES : MindMapPreferences :=
  { theme := "light", fontFamily := "Inter, sans-serif", fontSize := 15 }

/-- The `MindMapState` of the hook. -/
structure MindMapState where
  root : MindMapNode
  selectedNodeId : Option String
  history : List MindMapNode
  historyIndex : Nat
  zoom : ℚ
  pan : ℚ × ℚ
  preferences : MindMapPreferences
deriving Repr

def MAX_HISTORY : Nat := 50

/-- A fallback node for the (unreachable) out-of-range history reads; the
history index invariant keeps every read in range. -/
def fallbackNode : MindMapNode := createInitialNode ""

/-- `saveToHistory(newRoot)`: truncate entries after the current index,
append a snapshot of the new root, drop the oldest entry when over capacity,
and point the index at the newest entry. -/
def saveToHistory (newRoot : MindMapNode) (prev : MindMapState) : MindMapState :=
  let newHistory := prev.history.take (prev.historyIndex + 1) ++ [newRoot]
  let newHistory := if MAX_HISTORY < newHistory.length
                    then newHistory.drop 1 else newHistory
  { prev with root := newRoot, history := newHistory,
              historyIndex := newHistory.length - 1 }

/-- A fresh node as built by `addNode` / `addSiblingNode`. -/
def newNodeAt (newId text : String) (depth : Int) : MindMapNode :=
  { id := newId, text := text, x := 0, y := 0, color := getColorForDepth depth,
    children := [], collapsed := false, icon := "none", manualPosition := false }

/-- `addNode(parentId, text)` with the fresh uuid passed as `newId`. -/
def addNode (s : MindMapState) (parentId newId text : String) : MindMapState :=
  match findNodeById s.root parentId with
  | some _ =>
    let parentDepth := getNodeDepth s.root parentId 0
    let newNode := newNodeAt newId text (parentDepth + 1)
    let newRoot := modifyFirst
      (fun p => { p with collapsed := false, children := p.children ++ [newNode] })
      parentId s.root
    { saveToHistory newRoot s with selectedNodeId := some newId }
  | none => s

/-- `addSiblingNode(nodeId, text)` with the fresh uuid passed as `newId`. -/
def addSiblingNode (s : MindMapState) (nodeId newId text : String) : MindMapState :=
  if nodeId = s.root.id then addNode s nodeId newId text
  else
    match findParentNode s.root nodeId with
    | some parent =>
      let siblingDepth := getNodeDepth s.root nodeId 0
      let newNode := newNodeAt newId text siblingDepth
      let newRoot := { s.root with children := addSiblingWalk newNode nodeId s.root.children }
      let _ := parent
      { saveToHistory newRoot s with selectedNodeId := some newId }
    | none => s

/-- `updateNodeText(nodeId, text)`. -/
def updateNodeText (s : MindMapState) (nodeId text : String) : MindMapState :=
  match findNodeById s.root nodeId with
  | some _ => saveToHistory (modifyFirst (fun n => { n with text := text }) nodeId s.root) s
  | none => s

/-- `updateNodeColor(nodeId, color)`. -/
def updateNodeColor (s : MindMapState) (nodeId color : String) : MindMapState :=
  match findNodeById s.root nodeId with
  | some _ => saveToHistory (modifyFirst (fun n => { n with color := color }) nodeId s.root) s
  | none => s

/-- `updateNodeIcon(nodeId, icon)`. -/
def updateNodeIcon (s : MindMapState) (nodeId icon : String) : MindMapState :=
  match findNodeById s.root nodeId with
  | some _ => saveToHistory (modifyFirst (fun n => { n with icon := icon }) nodeId s.root) s
  | none => s

/-- `toggleNodeCollapse(nodeId)`. -/
def toggleNodeCollapse (s : MindMapState) (nodeId : String) : MindMapState :=
  match findNodeById s.root nodeId with
  | some _ =>
    saveToHistory (modifyFirst (fun n => { n with collapsed := !n.collapsed }) nodeId s.root) s
  | none => s

/-- `setNodeCollapsed(nodeId, collapsed, deep)`. -/
def setNodeCollapsed (s : MindMapState) (nodeId : String) (collapsed deep : Bool) :
    MindMapState :=
  match findNodeById s.root nodeId with
  | some _ =>
    saveToHistory (modifyFirst (applyCollapse collapsed deep) nodeId s.root) s
  | none => s

/-- `collapseAll()`: the root is forced expanded, every descendant collapsed. -/
def collapseAll (s : MindMapState) : MindMapState :=
  saveToHistory (collapseDescendants { s.root with collapsed := false }) s

/-- `expandAll()`. -/
def expandAll (s : MindMapState) : MindMapState :=
  saveToHistory (expandDescendants s.root) s

/-- `deleteNode(nodeId)`: no-op on the root id or an id without a parent;
otherwise the node is removed from its parent's child sequence, the parent
is selected and a history snapshot is pushed. -/
def deleteNode (s : MindMapState) (nodeId : String) : MindMapState :=
  if nodeId = s.root.id then s
  else
    match findParentNode s.root nodeId with
    | some parent =>
      let newRoot := { s.root with children := deleteWalk nodeId s.root.children }
      { saveToHistory newRoot s with selectedNodeId := some parent.id }
    | none => s

/-- `updateNodePosition(nodeId, x, y)`: set the coordinates and
`manualPosition` on the live tree without touching the history. -/
def updateNodePosition (s : MindMapState) (nodeId : String) (x y : ℚ) : MindMapState :=
  match findNodeById s.root nodeId with
  | some _ =>
    let upd := fun n => { n with x := x, y := y, manualPosition := true }
    { s with root := modifyFirst upd nodeId s.root }
  | none => s

/-- `undo()`: step the history index back and restore that snapshot; no-op
at index 0. -/
def undo (s : MindMapState) : MindMapState :=
  if 0 < s.historyIndex then
    let newIndex := s.historyIndex - 1
    { s with root := s.history.getD newIndex fallbackNode, historyIndex := newIndex }
  else s

/-- `redo()`: step the history index forward and restore that snapshot;
no-op at the last index. -/
def redo (s : MindMapState) : MindMapState :=
  if s.historyIndex < s.history.length - 1 then
    let newIndex := s.historyIndex + 1
    { s with root := s.history.getD newIndex fallbackNode, historyIndex := newIndex }
  else s

/-- The initial hook state.  `computeDefaultPan` without a browser window
yields `{x: 100, y: 0}`; the pan value never matters to the claims. -/
def initialState (rootId : String) : MindMapState :=
  let initialRoot := createInitialNode rootId
  { root := initialRoot, selectedNodeId := some initialRoot.id,
    history := [initialRoot], historyIndex := 0, zoom := 1, pan := (100, 0),
    preferences := DEFAULT_PREFERENCES }

/-- One history-pushing mutation of the tree store (C1/C2); fresh uuids are
carried as explicit `newId` fields. -/
inductive Mutation where
  | addNode (parentId newId text : String)
  | addSiblingNode (nodeId newId text : String)
  | updateNodeText (nodeId text : String)
  | updateNodeColor (nodeId color : String)
  | updateNodeIcon (nodeId icon : String)
  | toggleNodeCollapse (nodeId : String)
  | setNodeCollapsed (nodeId : String) (collapsed deep : Bool)
  | collapseAll
  | expandAll
  | deleteNode (nodeId : String)
deriving Repr

/-- Apply one mutation to the state. -/
def applyMutation (s : MindMapState) : Mutation → MindMapState
  | .addNode parentId newId text => addNode s parentId newId text
  | .addSiblingNode nodeId newId text => addSiblingNode s nodeId newId text
  | .updateNodeText nodeId text => updateNodeText s nodeId text
  | .updateNodeColor nodeId color => updateNodeColor s nodeId color
  | .updateNodeIcon nodeId icon => updateNodeIcon s nodeId icon
  | .toggleNodeCollapse nodeId => toggleNodeCollapse s nodeId
  | .setNodeCollapsed nodeId collapsed deep => setNodeCollapsed s nodeId collapsed deep
  | .collapseAll => collapseAll s
  | .expandAll => expandAll s
  | .deleteNode nodeId => deleteNode s nodeId

/-- Run a sequence of mutations from the initial state. -/
def runMutations (rootId : String) (ms : List Mutation) : MindMapState :=
  ms.foldl applyMutation (initialState rootId)

mutual
/-- `getVisibleNodes` of the App component: a pre-order traversal that
pushes every node it reaches and descends into children only when the node
is not collapsed. -/
def getVisibleNodes (node : MindMapNode) : List MindMapNode :=
  node :: (if node.collapsed then [] else getVisibleNodesL node.children)
termination_by sizeOf node
decreasing_by cases node; simp; try omega
def getVisibleNodesL : List MindMapNode → List MindMapNode
  | [] => []
  | c :: cs => getVisibleNodes c ++ getVisibleNodesL cs
termination_by l => sizeOf l
decreasing_by all_goals (simp; try omega)
end

mutual
/-- The node set of the layout engine: `d3.hierarchy(root, n => n.collapsed
? [] : n.children)` contains the root and, through the accessor, the
children of every non-collapsed node.  (d3 enumerates descendants
breadth-first; only membership in the set matters here.) -/
def layoutNodes (node : MindMapNode) : List MindMapNode :=
  node :: (if node.collapsed then layoutNodesL [] else layoutNodesL node.children)
termination_by sizeOf node
decreasing_by all_goals (cases node; simp; try omega)
def layoutNodesL : List MindMapNode → List MindMapNode
  | [] => []
  | c :: cs => layoutNodes c ++ layoutNodesL cs
termination_by l => sizeOf l
decreasing_by all_goals (simp; try omega)
end

/-- A node as read from a persisted document: `children`, `collapsed`,
`manualPosition` and `icon` may be absent (`none`); an absent `children`
also stands for a present non-array value, which `Array.isArray` rejects
the same way. -/
structure RawNode where
  id : String
  text : String
  x : ℚ
  y : ℚ
  color : String
  children : Option (List RawNode)
  collapsed : Option Bool
  manualPosition : Option Bool
  icon : Option String
deriving Repr

mutual
/-- `normalizeMindMapNode` of the App component: fill absent fields with
defaults and coerce an unknown icon to "none" (`!node.icon` also catches
the empty string, which is outside the enumeration anyway), recursively on
every child. -/
def normalizeMindMapNode (r : RawNode) : MindMapNode :=
  { id := r.id, text := r.text, x := r.x, y := r.y, color := r.color,
    children := normalizeMindMapNodeL (match r.children with
                                       | some l => l
                                       | none => []),
    collapsed := r.collapsed.getD false,
    manualPosition := r.manualPosition.getD false,
    icon := match r.icon with
            | none => "none"
            | some s => if s = "" ∨ s ∉ NODE_ICON_VALUES then "none" else s }
termination_by sizeOf r
decreasing_by cases r; rename_i ch _ _ _; cases ch <;> simp_all <;> omega
def normalizeMindMapNodeL : List RawNode → List MindMapNode
  | [] => []
  | c :: cs => normalizeMindMapNode c :: normalizeMindMapNodeL cs
termination_by l => sizeOf l
decreasing_by all_goals (simp; try omega)
end

/-- `applyLoadedMindMap(loadedRoot)`: normalize the loaded tree, make it the
live root with a single-snapshot history at index 0, select the loaded
root, and leave edit mode (the second component models `editingNodeId`,
reset to `none`). -/
def applyLoadedMindMap (s : MindMapState) (editingNodeId : Option String)
    (loadedRoot : RawNode) : MindMapState × Option String :=
  let nroot := normalizeMindMapNode loadedRoot
  let _ := editingNodeId
  ({ s with root := nroot, history := [nroot], historyIndex := 0,
            selectedNodeId := some nroot.id }, none)

/-- A laid-out node of the layout engine: `x` is the vertical coordinate
(d3's `x` grows downward), `height` the metrics box height, and
`left`/`right` the horizontal bounds from `getHorizontalBounds`.  The
collision stage reads and shifts only `x`. -/
structure LBox where
  id : String
  x : ℚ
  height : ℚ
  left : ℚ
  right : ℚ
  children : List LBox
deriving Repr

/-- Minimum vertical gap between nodes (`VERTICAL_PADDING`). -/
def VERTICAL_PADDING : ℚ := 8

/-- Iteration cap of the collision loop (`MAX_ITERATIONS`). -/
def MAX_ITERATIONS : Nat := 10

mutual
/-- `moveNodeAndDescendants`: add `d` to the vertical coordinate of the node
and every descendant. -/
def shiftBox (d : ℚ) (b : LBox) : LBox :=
  { b with x := b.x + d, children := shiftBoxL d b.children }
termination_by sizeOf b
decreasing_by cases b; simp; try omega
def shiftBoxL (d : ℚ) : List LBox → List LBox
  | [] => []
  | c :: cs => shiftBox d c :: shiftBoxL d cs
termination_by l => sizeOf l
decreasing_by all_goals (simp; try omega)
end

mutual
/-- `getLowestDescendant`: the largest bottom edge in the subtree. -/
def getLowestDescendant (b : LBox) : ℚ :=
  getLowestDescendantL (b.x + b.height / 2) b.children
termination_by sizeOf b
decreasing_by cases b; simp; try omega
def getLowestDescendantL (lowest : ℚ) : List LBox → ℚ
  | [] => lowest
  | c :: cs => getLowestDescendantL (max lowest (getLowestDescendant c)) cs
termination_by l => sizeOf l
decreasing_by all_goals (simp; try omega)
end

mutual
/-- `getHighestDescendant`: the smallest top edge in the subtree. -/
def getHighestDescendant (b : LBox) : ℚ :=
  getHighestDescendantL (b.x - b.height / 2) b.children
termination_by sizeOf b
decreasing_by cases b; simp; try omega
def getHighestDescendantL (highest : ℚ) : List LBox → ℚ
  | [] => highest
  | c :: cs => getHighestDescendantL (min highest (getHighestDescendant c)) cs
termination_by l => sizeOf l
decreasing_by all_goals (simp; try omega)
end

/-- The inner loop of `adjustSiblings` on one sibling group, walking the
x-sorted siblings from the second one on: each sibling whose subtree top
overlaps the previous sibling's subtree bottom (plus padding) is shifted
down by the overlap.  The walk records each sibling's downward delta by id;
the previous sibling's lowest point after a shift by `overlap` is its
original lowest point plus `overlap` (a uniform subtree shift moves every
edge by the delta). -/
def siblingShifts (prevLowest : ℚ) : List LBox → List (String × ℚ) × Bool
  | [] => ([], false)
  | c :: cs =>
    let overlap := prevLowest + VERTICAL_PADDING - getHighestDescendant c
    if 0 < overlap then
      let rest := siblingShifts (getLowestDescendant c + overlap) cs
      ((c.id, overlap) :: rest.1, true)
    else
      let rest := siblingShifts (getLowestDescendant c) cs
      ((c.id, 0) :: rest.1, rest.2)

/-- Stable insertion into an x-sorted list (models the stable
`siblings.sort((a, b) => a.x - b.x)`). -/
def insertByX (a : LBox) : List LBox → List LBox
  | [] => [a]
  | b :: bs => if a.x ≤ b.x then a :: b :: bs else b :: insertByX a bs

/-- Stable sort of a sibling group by vertical position. -/
def sortByX : List LBox → List LBox
  | [] => []
  | a :: rest => insertByX a (sortByX rest)

/-- The delta recorded for a sibling id (0 for the first sibling and for
ids the walk never shifted). -/
def deltaFor (ds : List (String × ℚ)) (i : String) : ℚ :=
  match ds.find? (fun p => p.1 == i) with
  | some p => p.2
  | none => 0

/-- One `adjustSiblings` pass: every sibling group in the tree is separated
once, parent groups before the groups inside their children (the source
walks the flat d3 node array breadth-first; groups of distinct parents
touch disjoint subtrees, so only the parent-before-child order matters).
Group deltas are computed from the positions before the deeper groups
adjust, as in the source; a uniform subtree shift commutes with the
adjustment of the groups inside the shifted subtree, so shifting after the
recursion yields the source's result.  Returns the adjusted tree and
whether any shift happened (`hadAdjustment`). -/
def adjustSiblings (n : LBox) : LBox × Bool :=
  let sorted := sortByX n.children
  let shifts :=
    match sorted with
    | [] => ([], false)
    | c :: cs => siblingShifts (getLowestDescendant c) cs
  let deep := n.children.attach.map (fun c =>
    let r := adjustSiblings c.1
    (shiftBox (deltaFor shifts.1 c.1.id) r.1, r.2))
  ({ n with children := deep.map Prod.fst }, shifts.2 || deep.any Prod.snd)
termination_by sizeOf n
decreasing_by
  cases n; rename_i ch
  have h1 := List.sizeOf_lt_of_mem c.2
  simp_all; omega

/-- The iteration of `resolveCollisions`: run `adjustSiblings` passes until
one makes no adjustment, at most `fuel` times. -/
def adjustLoop : Nat → LBox → LBox
  | 0, n => n
  | k + 1, n =>
    let r := adjustSiblings n
    if r.2 then adjustLoop k r.1 else r.1

/-- `resolveCollisions`: up to `MAX_ITERATIONS` sibling-adjustment passes.
(The dead helpers `nodesOverlap` and `lineCrossesNode` of the source are
never invoked by the loop.) -/
def resolveCollisions (n : LBox) : LBox := adjustLoop MAX_ITERATIONS n

mutual
/-- All boxes of a layout subtree, in pre-order. -/
def allBoxes (b : LBox) : List LBox :=
  b :: allBoxesL b.children
termination_by sizeOf b
decreasing_by cases b; simp; try omega
def allBoxesL : List LBox → List LBox
  | [] => []
  | c :: cs => allBoxes c ++ allBoxesL cs
termination_by l => sizeOf l
decreasing_by all_goals (simp; try omega)
end

/-- Top edge of a box (d3 x grows downward). -/
def boxTop (b : LBox) : ℚ := b.x - b.height / 2

/-- Bottom edge of a box. -/
def boxBottom (b : LBox) : ℚ := b.x + b.height / 2

/-- Two node boxes overlap geometrically: their horizontal extents and
their vertical extents both intersect with positive area. -/
def boxesOverlap (a b : LBox) : Prop :=
  a.left < b.right ∧ b.left < a.right ∧ boxTop a < boxBottom b ∧ boxTop b < boxBottom a

/-! ### Basic lemmas about lookups -/

mutual
theorem findParentNode_of_none (t : MindMapNode) (i : String)
    (h : findNodeById t i = none) : findParentNode t i = none := by
  rw [findParentNode]
  rw [findNodeById] at h
  split at h
  · exact absurd h (by simp)
  · exact findParentNodeL_of_none t t.children i h
termination_by sizeOf t
decreasing_by cases t; simp; try omega
theorem findParentNodeL_of_none (self : MindMapNode) (l : List MindMapNode)
    (i : String) (h : findNodeByIdL l i = none) : findParentNodeL self l i = none := by
  match l with
  | [] => rw [findParentNodeL]
  | c :: cs =>
    rw [findNodeByIdL] at h
    rw [findParentNodeL]
    rcases hc : findNodeById c i with _ | v
    · rw [hc] at h
      have hcid : ¬ c.id = i := by
        intro he
        rw [findNodeById, if_pos he] at hc
        exact absurd hc (by simp)
      rw [if_neg hcid, findParentNode_of_none c i hc,
          findParentNodeL_of_none self cs i h]
    · rw [hc] at h; exact absurd h (by simp)
termination_by sizeOf l
decreasing_by all_goals (simp; try omega)
end

/-- C7: `deleteNode` applied to the root id, or to an id that resolves to no
node, leaves the whole state (tree, selection, history, history index)
exactly as it was. -/
theorem deleteNode_noop_c7 (s : MindMapState) (nodeId : String)
    (h : nodeId = s.root.id ∨ findNodeById s.root nodeId = none) :
    deleteNode s nodeId = s := by
  rw [deleteNode]
  rcases h with h | h
  · rw [if_pos h]
  · have hrid : ¬ nodeId = s.root.id := by
      intro he
      rw [findNodeById, if_pos he.symm] at h
      exact absurd h (by simp)
    rw [if_neg hrid, findParentNode_of_none s.root nodeId h]

/-- Witness for C7 at a concrete input: deleting the root of the initial
state is a no-op. -/
theorem deleteNode_noop_c7_witness :
    deleteNode (initialState "r") "r" = initialState "r" :=
  deleteNode_noop_c7 (initialState "r") "r" (Or.inl rfl)

/-- C9: loading a document replaces the history with the single normalized
snapshot at index 0, selects the loaded root, exits edit mode, and makes an
immediate `undo` a no-op (the previous undo history is discarded). -/
theorem applyLoadedMindMap_c9 (s : MindMapState) (editing : Option String)
    (raw : RawNode) :
    (applyLoadedMindMap s editing raw).1.root = normalizeMindMapNode raw ∧
    (applyLoadedMindMap s editing raw).1.history = [normalizeMindMapNode raw] ∧
    (applyLoadedMindMap s editing raw).1.historyIndex = 0 ∧
    (applyLoadedMindMap s editing raw).1.selectedNodeId
      = some (normalizeMindMapNode raw).id ∧
    (applyLoadedMindMap s editing raw).2 = none ∧
    undo (applyLoadedMindMap s editing raw).1 = (applyLoadedMindMap s editing raw).1 := by
  refine ⟨rfl, rfl, rfl, rfl, rfl, ?_⟩
  rw [undo]
  simp [applyLoadedMindMap]

/-- C10: `undo` and `redo` change only the live root and the history index:
selection, zoom, pan, preferences (and the history itself) are untouched.
Consequently the selection can go stale: in the concrete run below, undoing
an `addNode` leaves the new node selected while it no longer exists in the
restored tree. -/
theorem undo_redo_frame_c10 (s : MindMapState) :
    (undo s).selectedNodeId = s.selectedNodeId ∧
    (undo s).zoom = s.zoom ∧ (undo s).pan = s.pan ∧
    (undo s).preferences = s.preferences ∧ (undo s).history = s.history ∧
    (redo s).selectedNodeId = s.selectedNodeId ∧
    (redo s).zoom = s.zoom ∧ (redo s).pan = s.pan ∧
    (redo s).preferences = s.preferences ∧ (redo s).history = s.history ∧
    (undo (applyMutation (initialState "r") (.addNode "r" "c" "New Node"))).selectedNodeId
      = some "c" ∧
    findNodeById
      (undo (applyMutation (initialState "r") (.addNode "r" "c" "New Node"))).root
      "c" = none := by
  refine ⟨?_, ?_, ?_, ?_, ?_, ?_, ?_, ?_, ?_, ?_, ?_, ?_⟩ <;>
    first
      | (rw [undo]; split <;> rfl)
      | (rw [redo]; split <;> rfl)
      | (simp [applyMutation, addNode, initialState, createInitialNode,
               findNodeById, findNodeByIdL, getNodeDepth, modifyFirst,
               saveToHistory, MAX_HISTORY, undo, newNodeAt, getColorForDepth,
               LEVEL_COLORS, fallbackNode])

/-! ### History invariants (C1, C2) -/

/-- The live root agrees with the snapshot at the current index, which is in
range. -/
def HistSync (s : MindMapState) : Prop :=
  s.historyIndex < s.history.length ∧
  s.history.getD s.historyIndex fallbackNode = s.root

/-- Full history invariant of states reachable by mutations: in sync, the
index points at the newest snapshot, and the capacity cap holds. -/
def HistTop (s : MindMapState) : Prop :=
  s.historyIndex + 1 = s.history.length ∧
  s.history.length ≤ MAX_HISTORY ∧
  s.history.getD s.historyIndex fallbackNode = s.root

theorem HistTop.toSync {s : MindMapState} (h : HistTop s) : HistSync s :=
  ⟨by have h1 := h.1; omega, h.2.2⟩

theorem initialState_histTop (rootId : String) : HistTop (initialState rootId) := by
  refine ⟨rfl, by simp [initialState, MAX_HISTORY], rfl⟩

theorem list_getD_concat (l : List MindMapNode) (r d : MindMapNode) :
    (l ++ [r]).getD l.length d = r := by
  induction l with
  | nil => rfl
  | cons a as ih =>
    simp only [List.cons_append, List.length_cons, List.getD_cons_succ]
    exact ih

theorem list_getD_tail (l : List MindMapNode) (k : Nat) (d : MindMapNode) :
    l.tail.getD k d = l.getD (k + 1) d := by
  cases l <;> simp [List.getD]

theorem saveToHistory_histTop (s : MindMapState) (r : MindMapNode)
    (hlen : s.history.length ≤ MAX_HISTORY) : HistTop (saveToHistory r s) := by
  have hmax : MAX_HISTORY = 50 := rfl
  rw [saveToHistory]
  set t := s.history.take (s.historyIndex + 1) with ht
  have h1 : (t ++ [r]).length = t.length + 1 := by simp
  have htle : t.length ≤ s.history.length := by simp [ht]
  by_cases hcap : MAX_HISTORY < (t ++ [r]).length
  · have ht50 : MAX_HISTORY ≤ t.length := by omega
    simp only [if_pos hcap]
    have hdlen : ((t ++ [r]).drop 1).length = t.length := by simp
    refine ⟨?_, ?_, ?_⟩
    · show ((t ++ [r]).drop 1).length - 1 + 1 = ((t ++ [r]).drop 1).length
      omega
    · show ((t ++ [r]).drop 1).length ≤ MAX_HISTORY
      omega
    · show ((t ++ [r]).drop 1).getD (((t ++ [r]).drop 1).length - 1) fallbackNode = r
      rw [List.drop_one, list_getD_tail, List.length_tail]
      have h2 : (t ++ [r]).length - 1 - 1 + 1 = t.length := by omega
      rw [h2, list_getD_concat]
  · simp only [if_neg hcap]
    refine ⟨?_, ?_, ?_⟩
    · show (t ++ [r]).length - 1 + 1 = (t ++ [r]).length
      omega
    · show (t ++ [r]).length ≤ MAX_HISTORY
      omega
    · show (t ++ [r]).getD ((t ++ [r]).length - 1) fallbackNode = r
      have h2 : (t ++ [r]).length - 1 = t.length := by omega
      rw [h2, list_getD_concat]

/-- Every mutation either leaves the state exactly unchanged (a missed
lookup or the protected root) or is a `saveToHistory` push followed by a
selection update. -/
theorem applyMutation_char (s : MindMapState) (m : Mutation) :
    applyMutation s m = s ∨
    ∃ r sel, applyMutation s m = { saveToHistory r s with selectedNodeId := sel } := by
  cases m with
  | addNode parentId newId text =>
    simp only [applyMutation, addNode]
    rcases h : findNodeById s.root parentId with _ | p
    · exact Or.inl rfl
    · exact Or.inr ⟨_, _, rfl⟩
  | addSiblingNode nodeId newId text =>
    simp only [applyMutation, addSiblingNode, addNode]
    by_cases hr : nodeId = s.root.id
    · rw [if_pos hr]
      rcases h : findNodeById s.root nodeId with _ | p
      · exact Or.inl rfl
      · exact Or.inr ⟨_, _, rfl⟩
    · rw [if_neg hr]
      rcases h : findParentNode s.root nodeId with _ | p
      · exact Or.inl rfl
      · exact Or.inr ⟨_, _, rfl⟩
  | updateNodeText nodeId text =>
    simp only [applyMutation, updateNodeText]
    rcases h : findNodeById s.root nodeId with _ | p
    · exact Or.inl rfl
    · exact Or.inr ⟨_, _, rfl⟩
  | updateNodeColor nodeId color =>
    simp only [applyMutation, updateNodeColor]
    rcases h : findNodeById s.root nodeId with _ | p
    · exact Or.inl rfl
    · exact Or.inr ⟨_, _, rfl⟩
  | updateNodeIcon nodeId icon =>
    simp only [applyMutation, updateNodeIcon]
    rcases h : findNodeById s.root nodeId with _ | p
    · exact Or.inl rfl
    · exact Or.inr ⟨_, _, rfl⟩
  | toggleNodeCollapse nodeId =>
    simp only [applyMutation, toggleNodeCollapse]
    rcases h : findNodeById s.root nodeId with _ | p
    · exact Or.inl rfl
    · exact Or.inr ⟨_, _, rfl⟩
  | setNodeCollapsed nodeId collapsed deep =>
    simp only [applyMutation, setNodeCollapsed]
    rcases h : findNodeById s.root nodeId with _ | p
    · exact Or.inl rfl
    · exact Or.inr ⟨_, _, rfl⟩
  | collapseAll => exact Or.inr ⟨_, _, rfl⟩
  | expandAll => exact Or.inr ⟨_, _, rfl⟩
  | deleteNode nodeId =>
    simp only [applyMutation, deleteNode]
    by_cases hr : nodeId = s.root.id
    · rw [if_pos hr]; exact Or.inl rfl
    · rw [if_neg hr]
      rcases h : findParentNode s.root nodeId with _ | p
      · exact Or.inl rfl
      · exact Or.inr ⟨_, _, rfl⟩

theorem applyMutation_histTop (s : MindMapState) (m : Mutation)
    (h : HistTop s) : HistTop (applyMutation s m) := by
  rcases applyMutation_char s m with he | ⟨r, sel, he⟩
  · rw [he]; exact h
  · rw [he]; exact saveToHistory_histTop s r h.2.1

theorem foldl_histTop (ms : List Mutation) (s : MindMapState) (h : HistTop s) :
    HistTop (ms.foldl applyMutation s) := by
  induction ms generalizing s with
  | nil => exact h
  | cons m rest ih => exact ih (applyMutation s m) (applyMutation_histTop s m h)

theorem runMutations_histTop (rootId : String) (ms : List Mutation) :
    HistTop (runMutations rootId ms) :=
  foldl_histTop ms (initialState rootId) (initialState_histTop rootId)

/-- The state at history position `j` (proof helper: both `undo` and `redo`
produce states of this shape). -/
def atIndex (s : MindMapState) (j : Nat) : MindMapState :=
  { s with root := s.history.getD j fallbackNode, historyIndex := j }

theorem atIndex_sync (s : MindMapState) (j : Nat) (h : j < s.history.length) :
    HistSync (atIndex s j) := ⟨h, rfl⟩

/-- `k` undos step the index back by `k`, clamped at 0, restoring the
snapshot there; history and everything else stay put. -/
theorem undo_iterate (k : Nat) (s : MindMapState) (hs : HistSync s) :
    undo^[k] s = atIndex s (s.historyIndex - k) := by
  induction k generalizing s with
  | zero =>
    simp only [Function.iterate_zero, id_eq, Nat.sub_zero, atIndex]
    rw [hs.2]
  | succ k ih =>
    rw [Function.iterate_succ_apply]
    by_cases h0 : 0 < s.historyIndex
    · have hu : undo s = atIndex s (s.historyIndex - 1) := by
        rw [undo, if_pos h0]; rfl
      rw [hu, ih _ (atIndex_sync s _ (by have := hs.1; omega))]
      have harith : s.historyIndex - 1 - k = s.historyIndex - (k + 1) := by omega
      simp only [atIndex, harith]
    · have h0x : s.historyIndex = 0 := by omega
      have hu : undo s = s := by rw [undo, if_neg h0]
      rw [hu, ih s hs]
      have harith : s.historyIndex - k = s.historyIndex - (k + 1) := by omega
      simp only [atIndex, harith]

/-- `k` redos step the index forward by `k`, clamped at the last entry. -/
theorem redo_iterate (k : Nat) (s : MindMapState) (hs : HistSync s) :
    redo^[k] s = atIndex s (min (s.historyIndex + k) (s.history.length - 1)) := by
  induction k generalizing s with
  | zero =>
    have hmin : min (s.historyIndex + 0) (s.history.length - 1) = s.historyIndex := by
      have := hs.1; omega
    simp only [Function.iterate_zero, id_eq, hmin, atIndex]
    rw [hs.2]
  | succ k ih =>
    rw [Function.iterate_succ_apply]
    by_cases h0 : s.historyIndex < s.history.length - 1
    · have hu : redo s = atIndex s (s.historyIndex + 1) := by
        rw [redo, if_pos h0]; rfl
      rw [hu, ih _ (atIndex_sync s _ (by have := hs.1; omega))]
      have harith : min (s.historyIndex + 1 + k) (s.history.length - 1)
          = min (s.historyIndex + (k + 1)) (s.history.length - 1) := by omega
      simp only [atIndex, harith]
    · have hu : redo s = s := by rw [redo, if_neg h0]
      rw [hu, ih s hs]
      have harith : min (s.historyIndex + k) (s.history.length - 1)
          = min (s.historyIndex + (k + 1)) (s.history.length - 1) := by
        have := hs.1; omega
      simp only [atIndex, harith]

/-- C1: for a sequence of at most 50 history-pushing mutations from the
initial state, undoing once per step and then redoing the same number of
times restores the live tree exactly (value equality is deep equality);
moreover `undo` at history index 0 and `redo` at the last index are
no-ops. -/
theorem undo_redo_roundtrip_c1 (rootId : String) (ms : List Mutation)
    (hms : ms.length ≤ 50) (t u : MindMapState)
    (ht : t.historyIndex = 0) (hu : u.historyIndex = u.history.length - 1) :
    (redo^[ms.length] (undo^[ms.length] (runMutations rootId ms))).root
      = (runMutations rootId ms).root ∧
    undo t = t ∧ redo u = u := by
  refine ⟨?_, ?_, ?_⟩
  · have htop := runMutations_histTop rootId ms
    set s := runMutations rootId ms with hsdef
    have hs := htop.toSync
    rw [undo_iterate ms.length s hs,
        redo_iterate ms.length _ (atIndex_sync s _ (by have := hs.1; omega))]
    have hmin : min ((atIndex s (s.historyIndex - ms.length)).historyIndex + ms.length)
        ((atIndex s (s.historyIndex - ms.length)).history.length - 1) = s.historyIndex := by
      show min (s.historyIndex - ms.length + ms.length) (s.history.length - 1)
        = s.historyIndex
      have h1 := htop.1
      omega
    rw [atIndex, hmin]
    show s.history.getD s.historyIndex fallbackNode = s.root
    exact hs.2
  · rw [undo, if_neg (by omega)]
  · rw [redo, if_neg (by omega)]

/-- Witness for C1 at a concrete input (one `updateNodeText` mutation, and
the initial state as the boundary state for both no-ops). -/
theorem undo_redo_roundtrip_c1_witness :
    (redo^[[Mutation.updateNodeText "r" "hello"].length]
      (undo^[[Mutation.updateNodeText "r" "hello"].length]
        (runMutations "r" [Mutation.updateNodeText "r" "hello"]))).root
      = (runMutations "r" [Mutation.updateNodeText "r" "hello"]).root ∧
    undo (initialState "r") = initialState "r" ∧
    redo (initialState "r") = initialState "r" :=
  undo_redo_roundtrip_c1 "r" [Mutation.updateNodeText "r" "hello"] (by decide)
    (initialState "r") (initialState "r") rfl (by simp [initialState])

/-- A reachable state used only to witness C2's capacity behaviour at the
cap: a full 50-entry history with the index on the newest entry. -/
def fullHistoryState : MindMapState :=
  { root := fallbackNode, selectedNodeId := none,
    history := List.replicate 50 fallbackNode, historyIndex := 49,
    zoom := 1, pan := (0, 0), preferences := DEFAULT_PREFERENCES }

/-- C2: along any mutation sequence the history never exceeds 50 entries,
is never empty, and the index always points at the newest entry (hence lies
in `[0, length-1]`); and a push onto a full history drops exactly the
oldest snapshot while the index still points at the newest entry. -/
theorem history_invariants_c2 (rootId : String) (ms : List Mutation)
    (t : MindMapState) (r : MindMapNode)
    (h1 : t.history.length = MAX_HISTORY)
    (h2 : t.historyIndex + 1 = t.history.length) :
    (runMutations rootId ms).history.length ≤ 50 ∧
    0 < (runMutations rootId ms).history.length ∧
    (runMutations rootId ms).historyIndex + 1 = (runMutations rootId ms).history.length ∧
    (saveToHistory r t).history = t.history.drop 1 ++ [r] ∧
    (saveToHistory r t).historyIndex = (saveToHistory r t).history.length - 1 := by
  have htop := runMutations_histTop rootId ms
  refine ⟨htop.2.1, by have := htop.1; omega, htop.1, ?_, rfl⟩
  rw [saveToHistory]
  have htake : t.history.take (t.historyIndex + 1) = t.history := by
    rw [h2]; exact List.take_length t.history
  rw [htake]
  have hcap : MAX_HISTORY < (t.history ++ [r]).length := by
    simp [h1]
  rw [if_pos hcap]
  show (t.history ++ [r]).drop 1 = t.history.drop 1 ++ [r]
  rcases hh : t.history with _ | ⟨a, rest⟩
  · rw [hh] at h1; simp [MAX_HISTORY] at h1
  · simp

/-- Witness for C2: the empty mutation sequence for the invariants and a
concrete full-history state for the capacity push. -/
theorem history_invariants_c2_witness :
    (runMutations "r" []).history.length ≤ 50 ∧
    0 < (runMutations "r" []).history.length ∧
    (runMutations "r" []).historyIndex + 1 = (runMutations "r" []).history.length ∧
    (saveToHistory fallbackNode fullHistoryState).history
      = fullHistoryState.history.drop 1 ++ [fallbackNode] ∧
    (saveToHistory fallbackNode fullHistoryState).historyIndex
      = (saveToHistory fallbackNode fullHistoryState).history.length - 1 :=
  history_invariants_c2 "r" [] fullHistoryState fallbackNode
    (by simp [fullHistoryState, MAX_HISTORY]) (by simp [fullHistoryState])

/-! ### C8: load-time normalization -/

/-- The normalization contract, written from the spec: at every node a
missing `children` becomes the empty sequence, a missing `collapsed` /
`manualPosition` becomes `false`, a missing icon or an icon outside the
fixed enumeration becomes "none", and every present, valid field is kept
unchanged.  This is the spec-side relation that `normalizeMindMapNode`
is proved to satisfy. -/
inductive IsNormalized : RawNode → MindMapNode → Prop where
  | mk : ∀ (r : RawNode) (m : MindMapNode),
      m.id = r.id → m.text = r.text → m.x = r.x → m.y = r.y → m.color = r.color →
      m.collapsed = r.collapsed.getD false →
      m.manualPosition = r.manualPosition.getD false →
      (r.icon.getD "none" ∈ NODE_ICON_VALUES → m.icon = r.icon.getD "none") →
      (r.icon.getD "none" ∉ NODE_ICON_VALUES → m.icon = "none") →
      List.Forall₂ IsNormalized (r.children.getD []) m.children →
      IsNormalized r m

mutual
/-- C8: the load-time normalization fills exactly the absent or invalid
fields with their defaults, recursively at every node, and keeps every
present, valid field unchanged. -/
theorem normalize_isNormalized_c8 (r : RawNode) :
    IsNormalized r (normalizeMindMapNode r) := by
  rw [normalizeMindMapNode]
  refine IsNormalized.mk r _ rfl rfl rfl rfl rfl rfl rfl ?_ ?_ ?_
  · intro hmem
    show (match r.icon with
          | none => "none"
          | some s => if s = "" ∨ s ∉ NODE_ICON_VALUES then "none" else s)
        = r.icon.getD "none"
    rcases hi : r.icon with _ | s
    · rfl
    · rw [hi] at hmem
      simp only [Option.getD_some] at hmem ⊢
      have hne : ¬(s = "" ∨ s ∉ NODE_ICON_VALUES) := by
        rintro (he | hnot)
        · rw [he] at hmem; simp [NODE_ICON_VALUES] at hmem
        · exact hnot hmem
      rw [if_neg hne]
  · intro hmem
    show (match r.icon with
          | none => "none"
          | some s => if s = "" ∨ s ∉ NODE_ICON_VALUES then "none" else s)
        = "none"
    rcases hi : r.icon with _ | s
    · rfl
    · rw [hi] at hmem
      simp only [Option.getD_some] at hmem
      show (if s = "" ∨ s ∉ NODE_ICON_VALUES then "none" else s) = "none"
      rw [if_pos (Or.inr hmem)]
  · show List.Forall₂ IsNormalized (r.children.getD [])
      (normalizeMindMapNodeL (match r.children with
                              | some l => l
                              | none => []))
    rcases hc : r.children with _ | l
    · show List.Forall₂ IsNormalized [] (normalizeMindMapNodeL [])
      rw [normalizeMindMapNodeL]
      exact List.Forall₂.nil
    · exact normalizeL_isNormalized l
termination_by sizeOf r
decreasing_by
  cases r; simp_all; omega
theorem normalizeL_isNormalized (l : List RawNode) :
    List.Forall₂ IsNormalized l (normalizeMindMapNodeL l) := by
  match l with
  | [] => rw [normalizeMindMapNodeL]; exact List.Forall₂.nil
  | c :: cs =>
    rw [normalizeMindMapNodeL]
    exact List.Forall₂.cons (normalize_isNormalized_c8 c) (normalizeL_isNormalized cs)
termination_by sizeOf l
decreasing_by all_goals (simp; try omega)
end

/-! ### C3: collapsed subtrees, the visible list and the layout node set -/

/-- Ids of all nodes in a forest. -/
def treeIdsL (l : List MindMapNode) : List String :=
  (subtreeNodesL l).map (fun n => n.id)

mutual
theorem mem_subtree_trans (t m x : MindMapNode) (hm : m ∈ subtreeNodes t)
    (hx : x ∈ subtreeNodes m) : x ∈ subtreeNodes t := by
  rw [subtreeNodes] at hm
  rcases List.mem_cons.mp hm with he | hm2
  · subst he; exact hx
  · rw [subtreeNodes]
    exact List.mem_cons_of_mem _ (mem_subtreeL_trans t.children m x hm2 hx)
termination_by sizeOf t
decreasing_by cases t; simp; try omega
theorem mem_subtreeL_trans (l : List MindMapNode) (m x : MindMapNode)
    (hm : m ∈ subtreeNodesL l) (hx : x ∈ subtreeNodes m) : x ∈ subtreeNodesL l := by
  match l with
  | [] => rw [subtreeNodesL] at hm; exact absurd hm (List.not_mem_nil m)
  | c :: cs =>
    rw [subtreeNodesL] at hm ⊢
    rcases List.mem_append.mp hm with h1 | h2
    · exact List.mem_append_left _ (mem_subtree_trans c m x h1 hx)
    · exact List.mem_append_right _ (mem_subtreeL_trans cs m x h2 hx)
termination_by sizeOf l
decreasing_by all_goals (simp; try omega)
end

mutual
theorem visible_subset (t x : MindMapNode) (hx : x ∈ getVisibleNodes t) :
    x ∈ subtreeNodes t := by
  rw [getVisibleNodes] at hx
  rw [subtreeNodes]
  rcases List.mem_cons.mp hx with he | h2
  · exact List.mem_cons.mpr (Or.inl he)
  · by_cases hc : t.collapsed = true
    · rw [if_pos hc] at h2; exact absurd h2 (List.not_mem_nil x)
    · rw [if_neg hc] at h2
      exact List.mem_cons_of_mem _ (visibleL_subset t.children x h2)
termination_by sizeOf t
decreasing_by cases t; simp; try omega
theorem visibleL_subset (l : List MindMapNode) (x : MindMapNode)
    (hx : x ∈ getVisibleNodesL l) : x ∈ subtreeNodesL l := by
  match l with
  | [] => rw [getVisibleNodesL] at hx; exact absurd hx (List.not_mem_nil x)
  | c :: cs =>
    rw [getVisibleNodesL] at hx
    rw [subtreeNodesL]
    rcases List.mem_append.mp hx with h1 | h2
    · exact List.mem_append_left _ (visible_subset c x h1)
    · exact List.mem_append_right _ (visibleL_subset cs x h2)
termination_by sizeOf l
decreasing_by all_goals (simp; try omega)
end

mutual
theorem layoutNodes_eq (t : MindMapNode) : layoutNodes t = getVisibleNodes t := by
  rw [layoutNodes, getVisibleNodes]
  by_cases hc : t.collapsed = true
  · rw [if_pos hc, if_pos hc, layoutNodesL]
  · rw [if_neg hc, if_neg hc, layoutNodesL_eq t.children]
termination_by sizeOf t
decreasing_by cases t; simp; try omega
theorem layoutNodesL_eq (l : List MindMapNode) : layoutNodesL l = getVisibleNodesL l := by
  match l with
  | [] => rw [layoutNodesL, getVisibleNodesL]
  | c :: cs =>
    rw [layoutNodesL, getVisibleNodesL, layoutNodes_eq c, layoutNodesL_eq cs]
termination_by sizeOf l
decreasing_by all_goals (simp; try omega)
end

mutual
theorem findNodeById_isSome (t : MindMapNode) (i : String) (h : i ∈ treeIds t) :
    (findNodeById t i).isSome := by
  rw [findNodeById]
  by_cases he : t.id = i
  · rw [if_pos he]; rfl
  · rw [if_neg he]
    apply findNodeByIdL_isSome
    rw [treeIds, subtreeNodes] at h
    simp only [List.map_cons, List.mem_cons] at h
    rcases h with h1 | h2
    · exact absurd h1.symm he
    · exact h2
termination_by sizeOf t
decreasing_by cases t; simp; try omega
theorem findNodeByIdL_isSome (l : List MindMapNode) (i : String)
    (h : i ∈ treeIdsL l) : (findNodeByIdL l i).isSome := by
  match l with
  | [] => rw [treeIdsL, subtreeNodesL] at h; simp at h
  | c :: cs =>
    rw [findNodeByIdL]
    rw [treeIdsL, subtreeNodesL] at h
    simp only [List.map_append, List.mem_append] at h
    rcases hf : findNodeById c i with _ | v
    · rcases h with h1 | h2
      · have hs := findNodeById_isSome c i (by rw [treeIds]; exact h1)
        rw [hf] at hs; exact absurd hs (by simp)
      · exact findNodeByIdL_isSome cs i (by rw [treeIdsL]; exact h2)
    · rfl
termination_by sizeOf l
decreasing_by all_goals (simp; try omega)
end

mutual
theorem collapsed_desc_hidden (t n d : MindMapNode)
    (hnodup : (treeIds t).Nodup) (hn : n ∈ subtreeNodes t)
    (hcol : n.collapsed = true) (hd : d ∈ subtreeNodesL n.children) :
    d.id ∉ (getVisibleNodes t).map (fun v => v.id) := by
  have hd2 : d ∈ subtreeNodesL t.children := by
    rw [subtreeNodes] at hn
    rcases List.mem_cons.mp hn with he | hn2
    · rw [← he]; exact hd
    · exact mem_subtreeL_trans t.children n d hn2
        (by rw [subtreeNodes]; exact List.mem_cons_of_mem _ hd)
  have hdid : d.id ∈ treeIdsL t.children :=
    List.mem_map_of_mem (fun v => v.id) hd2
  have hnodup2 : (t.id :: treeIdsL t.children).Nodup := by
    rw [treeIds, subtreeNodes] at hnodup
    simpa [treeIdsL] using hnodup
  have hne : d.id ≠ t.id := by
    intro he
    exact (List.nodup_cons.mp hnodup2).1 (he ▸ hdid)
  rw [getVisibleNodes]
  simp only [List.map_cons, List.mem_cons, not_or]
  refine ⟨hne, ?_⟩
  by_cases hc : t.collapsed = true
  · rw [if_pos hc]; simp
  · rw [if_neg hc]
    rw [subtreeNodes] at hn
    rcases List.mem_cons.mp hn with he | hn2
    · exact absurd (he ▸ hcol) hc
    · exact collapsed_desc_hiddenL t.children n d (List.nodup_cons.mp hnodup2).2
        hn2 hcol hd
termination_by sizeOf t
decreasing_by cases t; simp; try omega
theorem collapsed_desc_hiddenL (l : List MindMapNode) (n d : MindMapNode)
    (hnodup : (treeIdsL l).Nodup) (hn : n ∈ subtreeNodesL l)
    (hcol : n.collapsed = true) (hd : d ∈ subtreeNodesL n.children) :
    d.id ∉ (getVisibleNodesL l).map (fun v => v.id) := by
  match l with
  | [] => rw [subtreeNodesL] at hn; exact absurd hn (List.not_mem_nil n)
  | c :: cs =>
    rw [treeIdsL, subtreeNodesL, List.map_append] at hnodup
    obtain ⟨hnodc, hnodcs, hdisj⟩ := List.nodup_append.mp hnodup
    rw [subtreeNodesL] at hn
    rw [getVisibleNodesL, List.map_append]
    simp only [List.mem_append, not_or]
    rcases List.mem_append.mp hn with h1 | h2
    · have hdc : d ∈ subtreeNodes c := mem_subtree_trans c n d h1
        (by rw [subtreeNodes]; exact List.mem_cons_of_mem _ hd)
      refine ⟨collapsed_desc_hidden c n d (by rw [treeIds]; exact hnodc) h1 hcol hd, ?_⟩
      intro hmem
      rcases List.mem_map.mp hmem with ⟨v, hv, hvid⟩
      have hv2 : v ∈ subtreeNodesL cs := visibleL_subset cs v hv
      exact hdisj (List.mem_map_of_mem (fun w => w.id) hdc)
        (hvid ▸ List.mem_map_of_mem (fun w => w.id) hv2)
    · have hdcs : d ∈ subtreeNodesL cs := mem_subtreeL_trans cs n d h2
        (by rw [subtreeNodes]; exact List.mem_cons_of_mem _ hd)
      refine ⟨?_, collapsed_desc_hiddenL cs n d (by rw [treeIdsL]; exact hnodcs) h2 hcol hd⟩
      intro hmem
      rcases List.mem_map.mp hmem with ⟨v, hv, hvid⟩
      have hv2 : v ∈ subtreeNodes c := visible_subset c v hv
      exact hdisj (hvid ▸ List.mem_map_of_mem (fun w => w.id) hv2)
        (List.mem_map_of_mem (fun w => w.id) hdcs)
termination_by sizeOf l
decreasing_by all_goals (simp; try omega)
end

/-- A concrete tree for C3: the root is expanded, its child "a" is collapsed
and has a child "b". -/
def nodeB : MindMapNode :=
  { id := "b", text := "B", x := 0, y := 0, color := "", children := [],
    collapsed := false, icon := "none", manualPosition := false }

def nodeA : MindMapNode :=
  { id := "a", text := "A", x := 0, y := 0, color := "", children := [nodeB],
    collapsed := true, icon := "none", manualPosition := false }

def exampleTree : MindMapNode :=
  { id := "r", text := "Root", x := 0, y := 0, color := "", children := [nodeA],
    collapsed := false, icon := "none", manualPosition := false }

/-- Counterexample to C3 as stated: the collapsed node "a" has non-empty
children, yet it does appear both in the visible node list and in the
layout engine's node set (only its descendants are hidden). -/
theorem collapsed_node_visible_c3_counterexample :
    nodeA.collapsed = true ∧ nodeA.children ≠ [] ∧
    nodeA ∈ getVisibleNodes exampleTree ∧
    nodeA ∈ layoutNodes exampleTree := by
  refine ⟨rfl, by simp [nodeA], ?_, ?_⟩
  · rw [getVisibleNodes]
    simp [exampleTree, getVisibleNodesL, getVisibleNodes, nodeA]
  · rw [layoutNodes_eq, getVisibleNodes]
    simp [exampleTree, getVisibleNodesL, getVisibleNodes, nodeA]

/-- C3 (amended): in a tree with distinct node ids, the descendants of a
node with `collapsed = true` never appear in the visible node list nor in
the layout engine's node set, while `findNodeById` still locates both the
collapsed node and each of its descendants.  (The collapsed node itself
does appear in both lists unless an ancestor hides it — see the
counterexample.) -/
theorem collapsed_descendants_hidden_c3 (t n d : MindMapNode)
    (hnodup : (treeIds t).Nodup) (hn : n ∈ subtreeNodes t)
    (hcol : n.collapsed = true) (hd : d ∈ subtreeNodesL n.children) :
    d.id ∉ (getVisibleNodes t).map (fun v => v.id) ∧
    d.id ∉ (layoutNodes t).map (fun v => v.id) ∧
    (findNodeById t n.id).isSome ∧
    (findNodeById t d.id).isSome := by
  have hdt : d ∈ subtreeNodes t := mem_subtree_trans t n d hn
    (by rw [subtreeNodes]; exact List.mem_cons_of_mem _ hd)
  refine ⟨collapsed_desc_hidden t n d hnodup hn hcol hd, ?_, ?_, ?_⟩
  · rw [layoutNodes_eq]
    exact collapsed_desc_hidden t n d hnodup hn hcol hd
  · exact findNodeById_isSome t n.id (List.mem_map_of_mem (fun v => v.id) hn)
  · exact findNodeById_isSome t d.id (List.mem_map_of_mem (fun v => v.id) hdt)

/-- Witness for the amended C3 at the concrete tree: the hidden descendant
is "b" under the collapsed node "a". -/
theorem collapsed_descendants_hidden_c3_witness :
    nodeB.id ∉ (getVisibleNodes exampleTree).map (fun v => v.id) ∧
    nodeB.id ∉ (layoutNodes exampleTree).map (fun v => v.id) ∧
    (findNodeById exampleTree nodeA.id).isSome ∧
    (findNodeById exampleTree nodeB.id).isSome :=
  collapsed_descendants_hidden_c3 exampleTree nodeA nodeB
    (by rw [treeIds]
        rw [subtreeNodes]
        simp [exampleTree, subtreeNodesL, subtreeNodes, nodeA, nodeB])
    (by rw [subtreeNodes]
        simp [exampleTree, subtreeNodesL, subtreeNodes, nodeA, nodeB])
    rfl
    (by simp [nodeA, nodeB, subtreeNodesL, subtreeNodes])

/-! ### C5: updateNodePosition is a pure position update -/

/-- The per-node scalar fields of a node (everything except `children`). -/
structure NodeFields where
  id : String
  text : String
  x : ℚ
  y : ℚ
  color : String
  collapsed : Bool
  icon : String
  manualPosition : Bool
deriving Repr, DecidableEq

def fieldsOf (n : MindMapNode) : NodeFields :=
  { id := n.id, text := n.text, x := n.x, y := n.y, color := n.color,
    collapsed := n.collapsed, icon := n.icon, manualPosition := n.manualPosition }

/-- The bare parent/child shape of a tree, ids only. -/
inductive IdTree where
  | node : String → List IdTree → IdTree
deriving Repr

mutual
def idShape (n : MindMapNode) : IdTree :=
  .node n.id (idShapeL n.children)
termination_by sizeOf n
decreasing_by cases n; simp; try omega
def idShapeL : List MindMapNode → List IdTree
  | [] => []
  | c :: cs => idShape c :: idShapeL cs
termination_by l => sizeOf l
decreasing_by all_goals (simp; try omega)
end

mutual
theorem findNodeById_mem_of_isSome (t : MindMapNode) (i : String)
    (h : (findNodeById t i).isSome) : i ∈ treeIds t := by
  rw [treeIds, subtreeNodes]
  simp only [List.map_cons, List.mem_cons]
  rw [findNodeById] at h
  by_cases he : t.id = i
  · exact Or.inl he.symm
  · rw [if_neg he] at h
    exact Or.inr (findNodeByIdL_mem_of_isSome t.children i h)
termination_by sizeOf t
decreasing_by cases t; simp; try omega
theorem findNodeByIdL_mem_of_isSome (l : List MindMapNode) (i : String)
    (h : (findNodeByIdL l i).isSome) : i ∈ treeIdsL l := by
  match l with
  | [] => rw [findNodeByIdL] at h; exact absurd h (by simp)
  | c :: cs =>
    rw [findNodeByIdL] at h
    rw [treeIdsL, subtreeNodesL]
    simp only [List.map_append, List.mem_append]
    rcases hf : findNodeById c i with _ | v
    · rw [hf] at h
      refine Or.inr ?_
      have hrec := findNodeByIdL_mem_of_isSome cs i h
      rw [treeIdsL] at hrec
      exact hrec
    · refine Or.inl ?_
      have hrec := findNodeById_mem_of_isSome c i (by rw [hf]; rfl)
      rw [treeIds] at hrec
      exact hrec
termination_by sizeOf l
decreasing_by all_goals (simp; try omega)
end

mutual
theorem idShape_modifyFirst (f : MindMapNode → MindMapNode)
    (hch : ∀ a, (f a).children = a.children) (hid : ∀ a, (f a).id = a.id)
    (i : String) (t : MindMapNode) :
    idShape (modifyFirst f i t) = idShape t := by
  rw [modifyFirst]
  by_cases he : t.id = i
  · rw [if_pos he]
    simp only [idShape]
    rw [hid, hch]
  · rw [if_neg he]
    simp only [idShape]
    show IdTree.node t.id (idShapeL (modifyFirstL f i t.children))
        = IdTree.node t.id (idShapeL t.children)
    rw [idShapeL_modifyFirstL f hch hid i t.children]
termination_by sizeOf t
decreasing_by cases t; simp; try omega
theorem idShapeL_modifyFirstL (f : MindMapNode → MindMapNode)
    (hch : ∀ a, (f a).children = a.children) (hid : ∀ a, (f a).id = a.id)
    (i : String) (l : List MindMapNode) :
    idShapeL (modifyFirstL f i l) = idShapeL l := by
  match l with
  | [] => rw [modifyFirstL]
  | c :: cs =>
    rw [modifyFirstL]
    by_cases hg : (findNodeById c i).isSome = true
    · rw [if_pos hg]
      simp only [idShapeL]
      rw [idShape_modifyFirst f hch hid i c]
    · rw [if_neg hg]
      simp only [idShapeL]
      rw [idShapeL_modifyFirstL f hch hid i cs]
termination_by sizeOf l
decreasing_by all_goals (simp; try omega)
end

mutual
theorem fields_modifyFirst (f : MindMapNode → MindMapNode)
    (hch : ∀ a, (f a).children = a.children) (i : String) (t : MindMapNode)
    (hnodup : (treeIds t).Nodup) :
    (subtreeNodes (modifyFirst f i t)).map fieldsOf
      = (subtreeNodes t).map
          (fun a => if a.id = i then fieldsOf (f a) else fieldsOf a) := by
  have hnodup2 : (t.id :: treeIdsL t.children).Nodup := by
    rw [treeIds, subtreeNodes] at hnodup
    simpa [treeIdsL] using hnodup
  rw [modifyFirst]
  by_cases he : t.id = i
  · rw [if_pos he]
    conv_lhs => rw [subtreeNodes]
    conv_rhs => rw [subtreeNodes]
    simp only [List.map_cons, hch, if_pos he]
    refine congrArg _ ?_
    refine (List.map_congr_left ?_).symm
    intro a ha
    have hne : ¬ a.id = i := by
      intro hai
      have : a.id ∈ treeIdsL t.children :=
        List.mem_map_of_mem (fun v => v.id) ha
      rw [hai, ← he] at this
      exact (List.nodup_cons.mp hnodup2).1 this
    rw [if_neg hne]
  · rw [if_neg he]
    conv_lhs => rw [subtreeNodes]
    conv_rhs => rw [subtreeNodes]
    simp only [List.map_cons, if_neg he]
    refine congrArg₂ _ rfl ?_
    exact fieldsL_modifyFirstL f hch i t.children (List.nodup_cons.mp hnodup2).2
termination_by sizeOf t
decreasing_by cases t; simp; try omega
theorem fieldsL_modifyFirstL (f : MindMapNode → MindMapNode)
    (hch : ∀ a, (f a).children = a.children) (i : String) (l : List MindMapNode)
    (hnodup : (treeIdsL l).Nodup) :
    (subtreeNodesL (modifyFirstL f i l)).map fieldsOf
      = (subtreeNodesL l).map
          (fun a => if a.id = i then fieldsOf (f a) else fieldsOf a) := by
  match l with
  | [] => rw [modifyFirstL, subtreeNodesL]; rfl
  | c :: cs =>
    rw [treeIdsL, subtreeNodesL, List.map_append] at hnodup
    obtain ⟨hnodc, hnodcs, hdisj⟩ := List.nodup_append.mp hnodup
    rw [modifyFirstL]
    by_cases hg : (findNodeById c i).isSome = true
    · rw [if_pos hg]
      conv_lhs => rw [subtreeNodesL]
      conv_rhs => rw [subtreeNodesL]
      rw [List.map_append, List.map_append]
      refine congrArg₂ _ ?_ ?_
      · exact fields_modifyFirst f hch i c (by rw [treeIds]; exact hnodc)
      · refine (List.map_congr_left ?_).symm
        intro a ha
        have hne : ¬ a.id = i := by
          intro hai
          have himem : i ∈ treeIds c := findNodeById_mem_of_isSome c i hg
          rw [treeIds] at himem
          exact hdisj himem (hai ▸ List.mem_map_of_mem (fun v => v.id) ha)
        rw [if_neg hne]
    · rw [if_neg hg]
      conv_lhs => rw [subtreeNodesL]
      conv_rhs => rw [subtreeNodesL]
      rw [List.map_append, List.map_append]
      refine congrArg₂ _ ?_ ?_
      · refine (List.map_congr_left ?_).symm
        intro a ha
        have hne : ¬ a.id = i := by
          intro hai
          have hsome := findNodeById_isSome c i
            (by rw [treeIds]; exact hai ▸ List.mem_map_of_mem (fun v => v.id) ha)
          rw [hsome] at hg
          exact hg rfl
        rw [if_neg hne]
      · exact fieldsL_modifyFirstL f hch i cs (by rw [treeIdsL]; exact hnodcs)
termination_by sizeOf l
decreasing_by all_goals (simp; try omega)
end

/-- C5: for an id that resolves, `updateNodePosition` sets exactly that
node's coordinates and `manualPosition` flag, and changes nothing else: the
history (contents and length), the history index, the selection, zoom, pan
and preferences are untouched, the parent/child shape of the tree is
untouched, and every other node keeps every scalar field. -/
theorem updateNodePosition_frame_c5 (s : MindMapState) (nodeId : String) (x y : ℚ)
    (hnodup : (treeIds s.root).Nodup)
    (hf : (findNodeById s.root nodeId).isSome) :
    (updateNodePosition s nodeId x y).history = s.history ∧
    (updateNodePosition s nodeId x y).historyIndex = s.historyIndex ∧
    (updateNodePosition s nodeId x y).selectedNodeId = s.selectedNodeId ∧
    (updateNodePosition s nodeId x y).zoom = s.zoom ∧
    (updateNodePosition s nodeId x y).pan = s.pan ∧
    (updateNodePosition s nodeId x y).preferences = s.preferences ∧
    idShape (updateNodePosition s nodeId x y).root = idShape s.root ∧
    (subtreeNodes (updateNodePosition s nodeId x y).root).map fieldsOf
      = (subtreeNodes s.root).map (fun a =>
          if a.id = nodeId
          then fieldsOf { a with x := x, y := y, manualPosition := true }
          else fieldsOf a) := by
  rcases hv : findNodeById s.root nodeId with _ | n
  · rw [hv] at hf; exact absurd hf (by simp)
  · simp only [updateNodePosition, hv]
    refine ⟨trivial, trivial, trivial, trivial, trivial, trivial, ?_, ?_⟩
    · exact idShape_modifyFirst
        (fun a => { a with x := x, y := y, manualPosition := true })
        (fun a => rfl) (fun a => rfl) nodeId s.root
    · exact fields_modifyFirst
        (fun a => { a with x := x, y := y, manualPosition := true })
        (fun a => rfl) nodeId s.root hnodup

/-- Witness for C5: moving the root of the initial state to (5, 7). -/
theorem updateNodePosition_frame_c5_witness :
    (updateNodePosition (initialState "r") "r" 5 7).history = (initialState "r").history ∧
    (updateNodePosition (initialState "r") "r" 5 7).historyIndex
      = (initialState "r").historyIndex ∧
    (updateNodePosition (initialState "r") "r" 5 7).selectedNodeId
      = (initialState "r").selectedNodeId ∧
    (updateNodePosition (initialState "r") "r" 5 7).zoom = (initialState "r").zoom ∧
    (updateNodePosition (initialState "r") "r" 5 7).pan = (initialState "r").pan ∧
    (updateNodePosition (initialState "r") "r" 5 7).preferences
      = (initialState "r").preferences ∧
    idShape (updateNodePosition (initialState "r") "r" 5 7).root
      = idShape (initialState "r").root ∧
    (subtreeNodes (updateNodePosition (initialState "r") "r" 5 7).root).map fieldsOf
      = (subtreeNodes (initialState "r").root).map (fun a =>
          if a.id = "r"
          then fieldsOf { a with x := 5, y := 7, manualPosition := true }
          else fieldsOf a) :=
  updateNodePosition_frame_c5 (initialState "r") "r" 5 7
    (by rw [treeIds, subtreeNodes]
        simp [initialState, createInitialNode, subtreeNodesL])
    (by rw [findNodeById]
        simp [initialState, createInitialNode])

/-! ### C6: addSiblingNode -/

theorem getNodeDepthL_cons (c : MindMapNode) (cs : List MindMapNode)
    (i : String) (d : Int) :
    getNodeDepthL (c :: cs) i d
      = if getNodeDepth c i d ≠ -1 then getNodeDepth c i d
        else getNodeDepthL cs i d := by
  rw [getNodeDepthL]

theorem findNodeById_none_of_not_mem (t : MindMapNode) (i : String)
    (h : i ∉ treeIds t) : findNodeById t i = none := by
  rcases hv : findNodeById t i with _ | v
  · rfl
  · exact absurd (findNodeById_mem_of_isSome t i (by rw [hv]; rfl)) h

theorem findNodeByIdL_none_of_not_mem (l : List MindMapNode) (i : String)
    (h : i ∉ treeIdsL l) : findNodeByIdL l i = none := by
  rcases hv : findNodeByIdL l i with _ | v
  · rfl
  · exact absurd (findNodeByIdL_mem_of_isSome l i (by rw [hv]; rfl)) h

mutual
theorem getNodeDepth_none (t : MindMapNode) (i : String) (d : Int)
    (h : i ∉ treeIds t) : getNodeDepth t i d = -1 := by
  rw [getNodeDepth]
  have hne : ¬ t.id = i := by
    intro he
    exact h (by rw [treeIds, subtreeNodes]; simp [he])
  rw [if_neg hne]
  refine getNodeDepthL_none t.children i (d + 1) ?_
  intro hmem
  refine h ?_
  rw [treeIds, subtreeNodes]
  rw [treeIdsL] at hmem
  simp only [List.map_cons, List.mem_cons]
  exact Or.inr hmem
termination_by sizeOf t
decreasing_by cases t; simp; try omega
theorem getNodeDepthL_none (l : List MindMapNode) (i : String) (d : Int)
    (h : i ∉ treeIdsL l) : getNodeDepthL l i d = -1 := by
  match l with
  | [] => rw [getNodeDepthL]
  | c :: cs =>
    rw [treeIdsL, subtreeNodesL, List.map_append] at h
    simp only [List.mem_append, not_or] at h
    rw [getNodeDepthL_cons]
    have hc : getNodeDepth c i d = -1 :=
      getNodeDepth_none c i d (by rw [treeIds]; exact h.1)
    rw [if_neg (by rw [hc]; exact fun hx => hx rfl)]
    exact getNodeDepthL_none cs i d (by rw [treeIdsL]; exact h.2)
termination_by sizeOf l
decreasing_by all_goals (simp; try omega)
end

mutual
theorem getNodeDepth_lb (t : MindMapNode) (i : String) (d : Int) (hd : 0 ≤ d) :
    getNodeDepth t i d = -1 ∨ d ≤ getNodeDepth t i d := by
  rw [getNodeDepth]
  by_cases he : t.id = i
  · rw [if_pos he]; exact Or.inr le_rfl
  · rw [if_neg he]
    rcases getNodeDepthL_lb t.children i (d + 1) (by omega) with h | h
    · exact Or.inl h
    · exact Or.inr (by omega)
termination_by sizeOf t
decreasing_by cases t; simp; try omega
theorem getNodeDepthL_lb (l : List MindMapNode) (i : String) (d : Int) (hd : 0 ≤ d) :
    getNodeDepthL l i d = -1 ∨ d ≤ getNodeDepthL l i d := by
  match l with
  | [] => rw [getNodeDepthL]; exact Or.inl rfl
  | c :: cs =>
    rw [getNodeDepthL_cons]
    by_cases hc : getNodeDepth c i d ≠ -1
    · rw [if_pos hc]
      rcases getNodeDepth_lb c i d hd with h | h
      · exact absurd h hc
      · exact Or.inr h
    · rw [if_neg hc]
      exact getNodeDepthL_lb cs i d hd
termination_by sizeOf l
decreasing_by all_goals (simp; try omega)
end

mutual
theorem getNodeDepth_mem_lb (t : MindMapNode) (i : String) (d : Int) (hd : 0 ≤ d)
    (h : i ∈ treeIds t) : d ≤ getNodeDepth t i d := by
  rw [getNodeDepth]
  by_cases he : t.id = i
  · rw [if_pos he]
  · rw [if_neg he]
    have h2 : i ∈ treeIdsL t.children := by
      rw [treeIds, subtreeNodes] at h
      simp only [List.map_cons, List.mem_cons] at h
      rcases h with h1 | h1
      · exact absurd h1.symm he
      · rw [treeIdsL]; exact h1
    have := getNodeDepthL_mem_lb t.children i (d + 1) (by omega) h2
    omega
termination_by sizeOf t
decreasing_by cases t; simp; try omega
theorem getNodeDepthL_mem_lb (l : List MindMapNode) (i : String) (d : Int)
    (hd : 0 ≤ d) (h : i ∈ treeIdsL l) : d ≤ getNodeDepthL l i d := by
  match l with
  | [] => rw [treeIdsL, subtreeNodesL] at h; simp at h
  | c :: cs =>
    rw [treeIdsL, subtreeNodesL, List.map_append] at h
    rw [getNodeDepthL_cons]
    by_cases hc : getNodeDepth c i d ≠ -1
    · rw [if_pos hc]
      rcases getNodeDepth_lb c i d hd with h1 | h1
      · exact absurd h1 hc
      · exact h1
    · rw [if_neg hc]
      simp only [List.mem_append] at h
      rcases h with h1 | h1
      · have := getNodeDepth_mem_lb c i d hd (by rw [treeIds]; exact h1)
        omega
      · exact getNodeDepthL_mem_lb cs i d hd (by rw [treeIdsL]; exact h1)
termination_by sizeOf l
decreasing_by all_goals (simp; try omega)
end

mutual
theorem findParentNode_mem (t : MindMapNode) (i : String) (P : MindMapNode)
    (h : findParentNode t i = some P) : P ∈ subtreeNodes t := by
  rw [findParentNode] at h
  rcases findParentNodeL_mem t t.children i P h with he | hm
  · rw [he, subtreeNodes]; exact List.mem_cons_self t _
  · rw [subtreeNodes]; exact List.mem_cons_of_mem _ hm
termination_by sizeOf t
decreasing_by cases t; simp; try omega
theorem findParentNodeL_mem (self : MindMapNode) (l : List MindMapNode) (i : String)
    (P : MindMapNode) (h : findParentNodeL self l i = some P) :
    P = self ∨ P ∈ subtreeNodesL l := by
  match l with
  | [] => rw [findParentNodeL] at h; exact absurd h (by simp)
  | c :: cs =>
    rw [findParentNodeL] at h
    by_cases hci : c.id = i
    · rw [if_pos hci] at h
      exact Or.inl (Option.some_injective _ h).symm
    · rw [if_neg hci] at h
      rcases hf : findParentNode c i with _ | found
      · rw [hf] at h
        rcases findParentNodeL_mem self cs i P h with he | hm
        · exact Or.inl he
        · refine Or.inr ?_
          rw [subtreeNodesL]
          exact List.mem_append_right _ hm
      · rw [hf] at h
        have : found = P := Option.some_injective _ h
        refine Or.inr ?_
        rw [subtreeNodesL]
        exact List.mem_append_left _ (this ▸ findParentNode_mem c i found hf)
termination_by sizeOf l
decreasing_by all_goals (simp; try omega)
end

mutual
theorem findParentNode_child (t : MindMapNode) (i : String) (P : MindMapNode)
    (h : findParentNode t i = some P) : ∃ c ∈ P.children, c.id = i := by
  rw [findParentNode] at h
  rcases findParentNodeL_child t t.children i P h with ⟨he, hc⟩ | hc
  · rcases hc with ⟨c, hc1, hc2⟩
    exact ⟨c, by rw [he]; exact hc1, hc2⟩
  · exact hc
termination_by sizeOf t
decreasing_by cases t; simp; try omega
theorem findParentNodeL_child (self : MindMapNode) (l : List MindMapNode) (i : String)
    (P : MindMapNode) (h : findParentNodeL self l i = some P) :
    (P = self ∧ ∃ c ∈ l, c.id = i) ∨ ∃ c ∈ P.children, c.id = i := by
  match l with
  | [] => rw [findParentNodeL] at h; exact absurd h (by simp)
  | c :: cs =>
    rw [findParentNodeL] at h
    by_cases hci : c.id = i
    · rw [if_pos hci] at h
      exact Or.inl ⟨(Option.some_injective _ h).symm, c, List.mem_cons_self c cs, hci⟩
    · rw [if_neg hci] at h
      rcases hf : findParentNode c i with _ | found
      · rw [hf] at h
        rcases findParentNodeL_child self cs i P h with ⟨he, d, hd1, hd2⟩ | hc
        · exact Or.inl ⟨he, d, List.mem_cons_of_mem c hd1, hd2⟩
        · exact Or.inr hc
      · rw [hf] at h
        have he : found = P := Option.some_injective _ h
        exact Or.inr (he ▸ findParentNode_child c i found hf)
termination_by sizeOf l
decreasing_by all_goals (simp; try omega)
end

mutual
theorem findParentNode_isSome_of_mem (t : MindMapNode) (i : String)
    (h : i ∈ treeIds t) (hne : i ≠ t.id) : (findParentNode t i).isSome := by
  rw [findParentNode]
  have h2 : i ∈ treeIdsL t.children := by
    rw [treeIds, subtreeNodes] at h
    simp only [List.map_cons, List.mem_cons] at h
    rcases h with h1 | h1
    · exact absurd h1 hne
    · rw [treeIdsL]; exact h1
  exact findParentNodeL_isSome_of_mem t t.children i h2
termination_by sizeOf t
decreasing_by cases t; simp; try omega
theorem findParentNodeL_isSome_of_mem (self : MindMapNode) (l : List MindMapNode)
    (i : String) (h : i ∈ treeIdsL l) : (findParentNodeL self l i).isSome := by
  match l with
  | [] => rw [treeIdsL, subtreeNodesL] at h; simp at h
  | c :: cs =>
    rw [findParentNodeL]
    by_cases hci : c.id = i
    · rw [if_pos hci]; rfl
    · rw [if_neg hci]
      rcases hf : findParentNode c i with _ | found
      · rw [treeIdsL, subtreeNodesL, List.map_append] at h
        simp only [List.mem_append] at h
        rcases h with h1 | h1
        · have := findParentNode_isSome_of_mem c i
            (by rw [treeIds]; exact h1) (fun he => hci he.symm)
          rw [hf] at this
          exact absurd this (by simp)
        · exact findParentNodeL_isSome_of_mem self cs i (by rw [treeIdsL]; exact h1)
      · rfl
termination_by sizeOf l
decreasing_by all_goals (simp; try omega)
end

/-- Insert `nn` right after the first node whose id is `i` (the effect of
`parent.children.splice(currentIndex + 1, 0, newNode)` on the parent's
child sequence). -/
def insertAfterFirst (nn : MindMapNode) (i : String) : List MindMapNode → List MindMapNode
  | [] => []
  | c :: cs => if c.id = i then c :: nn :: cs else c :: insertAfterFirst nn i cs

/-- `insertAfterFirst` is exactly insertion at 0-based index
`findIndex + 1`. -/
theorem insertAfterFirst_eq_insertIdx (nn : MindMapNode) (i : String)
    (l : List MindMapNode) (h : ∃ c ∈ l, c.id = i) :
    insertAfterFirst nn i l
      = l.insertIdx (l.findIdx (fun c => c.id == i) + 1) nn := by
  induction l with
  | nil => rcases h with ⟨c, hc, _⟩; exact absurd hc (List.not_mem_nil c)
  | cons c cs ih =>
    rw [insertAfterFirst]
    by_cases hci : c.id = i
    · rw [if_pos hci, List.findIdx_cons]
      have : (c.id == i) = true := by simp [hci]
      rw [this]
      simp [List.insertIdx]
    · rw [if_neg hci, List.findIdx_cons]
      have hb : (c.id == i) = false := by simp [hci]
      rw [hb]
      have h2 : ∃ d ∈ cs, d.id = i := by
        rcases h with ⟨d, hd1, hd2⟩
        rcases List.mem_cons.mp hd1 with he | hm
        · exact absurd (he ▸ hd2) hci
        · exact ⟨d, hm, hd2⟩
      rw [ih h2]
      simp [List.insertIdx]

theorem treeIds_node (t : MindMapNode) : treeIds t = t.id :: treeIdsL t.children := by
  rw [treeIds, subtreeNodes, List.map_cons, treeIdsL]

theorem treeIdsL_cons (c : MindMapNode) (cs : List MindMapNode) :
    treeIdsL (c :: cs) = treeIds c ++ treeIdsL cs := by
  rw [treeIdsL, subtreeNodesL, List.map_append, treeIds, treeIdsL]

theorem mem_subtreeNodesL_self (c : MindMapNode) (l : List MindMapNode)
    (h : c ∈ l) : c ∈ subtreeNodesL l := by
  induction l with
  | nil => exact absurd h (List.not_mem_nil c)
  | cons x xs ih =>
    rw [subtreeNodesL]
    rcases List.mem_cons.mp h with he | hm
    · refine List.mem_append_left _ ?_
      rw [he, subtreeNodes]
      exact List.mem_cons_self x _
    · exact List.mem_append_right _ (ih hm)

mutual
theorem addSiblingWalk_tree_spec (t : MindMapNode) (i : String) (nn P : MindMapNode)
    (hnodup : (treeIds t).Nodup) (hfresh : nn.id ∉ treeIds t) (hne : i ≠ t.id)
    (hp : findParentNode t i = some P) :
    findNodeById { t with children := addSiblingWalk nn i t.children } P.id
      = some { P with children := insertAfterFirst nn i P.children } ∧
    findNodeById { t with children := addSiblingWalk nn i t.children } nn.id = some nn ∧
    ∀ d : Int, 0 ≤ d →
      getNodeDepth { t with children := addSiblingWalk nn i t.children } nn.id d
        = getNodeDepth t i d := by
  rw [findParentNode] at hp
  rw [treeIds_node] at hnodup hfresh
  obtain ⟨hhd, htl⟩ := List.nodup_cons.mp hnodup
  simp only [List.mem_cons, not_or] at hfresh
  obtain ⟨hfr1, hfr2⟩ := hfresh
  obtain ⟨hLa, hLb, hLc⟩ := addSiblingWalk_list_spec t t.children i nn P htl hfr2 hhd hp
  refine ⟨?_, ?_, ?_⟩
  · rcases hLa with ⟨hPt, hwalk⟩ | ⟨hPmem, hfind⟩
    · rw [findNodeById, if_pos (show _ = P.id from by rw [hPt])]
      rw [hPt, hwalk]
    · have hne2 : ¬ ({ t with children := addSiblingWalk nn i t.children }).id = P.id := by
        show ¬ t.id = P.id
        intro he
        exact hhd (he ▸ hPmem)
      rw [findNodeById, if_neg hne2]
      exact hfind
  · have hne2 : ¬ ({ t with children := addSiblingWalk nn i t.children }).id = nn.id := by
      show ¬ t.id = nn.id
      exact fun he => hfr1 he.symm
    rw [findNodeById, if_neg hne2]
    exact hLb
  · intro d hd
    have hne2 : ¬ ({ t with children := addSiblingWalk nn i t.children }).id = nn.id := by
      show ¬ t.id = nn.id
      exact fun he => hfr1 he.symm
    rw [getNodeDepth, if_neg hne2, getNodeDepth, if_neg (fun he => hne he.symm)]
    exact hLc (d + 1) (by omega)
termination_by sizeOf t
decreasing_by cases t; simp; try omega
theorem addSiblingWalk_list_spec (self : MindMapNode) (l : List MindMapNode)
    (i : String) (nn P : MindMapNode)
    (hnodup : (treeIdsL l).Nodup) (hfresh : nn.id ∉ treeIdsL l)
    (hself : self.id ∉ treeIdsL l)
    (hp : findParentNodeL self l i = some P) :
    ((P = self ∧ addSiblingWalk nn i l = insertAfterFirst nn i l) ∨
      (P.id ∈ treeIdsL l ∧
        findNodeByIdL (addSiblingWalk nn i l) P.id
          = some { P with children := insertAfterFirst nn i P.children })) ∧
    findNodeByIdL (addSiblingWalk nn i l) nn.id = some nn ∧
    ∀ d : Int, 0 ≤ d →
      getNodeDepthL (addSiblingWalk nn i l) nn.id d = getNodeDepthL l i d := by
  match l with
  | [] => rw [findParentNodeL] at hp; exact absurd hp (by simp)
  | c :: cs =>
    rw [treeIdsL_cons] at hnodup hfresh hself
    obtain ⟨hnc, hncs, hdisj⟩ := List.nodup_append.mp hnodup
    simp only [List.mem_append, not_or] at hfresh hself
    obtain ⟨hfc, hfcs⟩ := hfresh
    obtain ⟨hsc, hscs⟩ := hself
    rw [findParentNodeL] at hp
    by_cases hci : c.id = i
    · rw [if_pos hci] at hp
      have hPs : P = self := (Option.some_injective _ hp).symm
      have hw : addSiblingWalk nn i (c :: cs) = c :: nn :: cs := by
        rw [addSiblingWalk, if_pos hci]
      have h1 : findNodeById c nn.id = none := findNodeById_none_of_not_mem c nn.id hfc
      have h2 : findNodeById nn nn.id = some nn := by
        rw [findNodeById, if_pos rfl]
      refine ⟨Or.inl ⟨hPs, by rw [hw, insertAfterFirst, if_pos hci]⟩, ?_, ?_⟩
      · rw [hw]
        simp only [findNodeByIdL, h1, h2]
      · intro d hd
        have hdc : getNodeDepth c nn.id d = -1 := getNodeDepth_none c nn.id d hfc
        have hdn : getNodeDepth nn nn.id d = d := by rw [getNodeDepth, if_pos rfl]
        have hdci : getNodeDepth c i d = d := by rw [getNodeDepth, if_pos hci]
        rw [hw, getNodeDepthL_cons, if_neg (by rw [hdc]; exact fun hx => hx rfl),
            getNodeDepthL_cons, hdn, if_pos (by omega),
            getNodeDepthL_cons, hdci, if_pos (by omega)]
    · rw [if_neg hci] at hp
      rcases hf : findParentNode c i with _ | found
      · rw [hf] at hp
        have hw : addSiblingWalk nn i (c :: cs) = c :: addSiblingWalk nn i cs := by
          rw [addSiblingWalk, if_neg hci, if_neg (by rw [hf]; simp)]
        obtain ⟨ihA, ihB, ihC⟩ :=
          addSiblingWalk_list_spec self cs i nn P hncs hfcs hscs hp
        have h1 : findNodeById c nn.id = none := findNodeById_none_of_not_mem c nn.id hfc
        have hic : i ∉ treeIds c := by
          intro hmem
          have := findParentNode_isSome_of_mem c i hmem (fun he => hci he.symm)
          rw [hf] at this
          exact absurd this (by simp)
        refine ⟨?_, ?_, ?_⟩
        · rcases ihA with ⟨hPs, hwcs⟩ | ⟨hPm, hfindcs⟩
          · exact Or.inl ⟨hPs, by rw [hw, insertAfterFirst, if_neg hci, hwcs]⟩
          · refine Or.inr ⟨by rw [treeIdsL_cons]; exact List.mem_append_right _ hPm, ?_⟩
            have h3 : findNodeById c P.id = none := by
              refine findNodeById_none_of_not_mem c P.id ?_
              intro hmem
              exact hdisj hmem hPm
            rw [hw]
            simp only [findNodeByIdL, h3]
            exact hfindcs
        · rw [hw]
          simp only [findNodeByIdL, h1]
          exact ihB
        · intro d hd
          have hdc : getNodeDepth c nn.id d = -1 := getNodeDepth_none c nn.id d hfc
          have hdci : getNodeDepth c i d = -1 := getNodeDepth_none c i d hic
          rw [hw, getNodeDepthL_cons, if_neg (by rw [hdc]; exact fun hx => hx rfl),
              getNodeDepthL_cons, if_neg (by rw [hdci]; exact fun hx => hx rfl)]
          exact ihC d hd
      · rw [hf] at hp
        have hfound : found = P := Option.some_injective _ hp
        have hw : addSiblingWalk nn i (c :: cs)
            = { c with children := addSiblingWalk nn i c.children } :: cs := by
          rw [addSiblingWalk, if_neg hci, if_pos (by rw [hf]; rfl)]
        obtain ⟨ta, tb, tc⟩ := addSiblingWalk_tree_spec c i nn P hnc hfc
          (fun he => hci he.symm) (hfound ▸ hf)
        have hPmem : P.id ∈ treeIds c := by
          rw [treeIds]
          exact List.mem_map_of_mem (fun v => v.id) (findParentNode_mem c i P (hfound ▸ hf))
        have hic : i ∈ treeIds c := by
          obtain ⟨ch, hch1, hch2⟩ := findParentNode_child c i P (hfound ▸ hf)
          have hchm : ch ∈ subtreeNodes c := by
            refine mem_subtree_trans c P ch (findParentNode_mem c i P (hfound ▸ hf)) ?_
            rw [subtreeNodes]
            exact List.mem_cons_of_mem _ (mem_subtreeNodesL_self ch P.children hch1)
          have h5 : ch.id ∈ (subtreeNodes c).map (fun v => v.id) :=
            List.mem_map_of_mem (fun v => v.id) hchm
          rw [hch2] at h5
          rw [treeIds]
          exact h5
        refine ⟨Or.inr ⟨by rw [treeIdsL_cons]; exact List.mem_append_left _ hPmem, ?_⟩, ?_, ?_⟩
        · rw [hw]
          simp only [findNodeByIdL, ta]
        · rw [hw]
          simp only [findNodeByIdL, tb]
        · intro d hd
          have hdepth : getNodeDepth c i d ≠ -1 := by
            have := getNodeDepth_mem_lb c i d hd hic
            omega
          rw [hw, getNodeDepthL_cons, tc d hd, if_pos hdepth,
              getNodeDepthL_cons, if_pos hdepth]
termination_by sizeOf l
decreasing_by all_goals (simp; try omega)
end

theorem saveToHistory_length (s : MindMapState) (r : MindMapNode)
    (hidx : s.historyIndex < s.history.length)
    (hlen : s.history.length ≤ MAX_HISTORY) :
    (saveToHistory r s).history.length = min (s.historyIndex + 2) MAX_HISTORY := by
  have hmax : MAX_HISTORY = 50 := rfl
  rw [saveToHistory]
  have h1 : (s.history.take (s.historyIndex + 1)).length = s.historyIndex + 1 := by
    rw [List.length_take]
    omega
  by_cases hcap : MAX_HISTORY < (s.history.take (s.historyIndex + 1) ++ [r]).length
  · simp only [if_pos hcap]
    rw [List.length_append, h1] at hcap
    simp only [List.length_singleton] at hcap
    show ((s.history.take (s.historyIndex + 1) ++ [r]).drop 1).length = _
    rw [List.length_drop, List.length_append, h1]
    simp only [List.length_singleton]
    omega
  · simp only [if_neg hcap]
    rw [List.length_append, h1] at hcap ⊢
    simp only [List.length_singleton] at hcap ⊢
    omega

/-- C6: for a non-root node X whose parent is found, `addSiblingNode` makes
the parent's child sequence the old sequence with the new node inserted at
0-based index `findIndex(X) + 1` (immediately after X), gives the new node
the depth of X and the depth-derived color of X's depth, selects the new
node and pushes exactly one history snapshot; on the root id it behaves as
`addNode`. -/
theorem addSiblingNode_c6 (s : MindMapState) (X newId text : String)
    (hnodup : (treeIds s.root).Nodup) (hfresh : newId ∉ treeIds s.root)
    (hne : ¬ X = s.root.id) (P : MindMapNode)
    (hp : findParentNode s.root X = some P)
    (hidx : s.historyIndex < s.history.length)
    (hlen : s.history.length ≤ MAX_HISTORY)
    (v : MindMapState) (n2 t2 : String) :
    findNodeById (addSiblingNode s X newId text).root P.id
      = some { P with children := P.children.insertIdx (P.children.findIdx (fun c => c.id == X) + 1) (newNodeAt newId text (getNodeDepth s.root X 0)) } ∧
    findNodeById (addSiblingNode s X newId text).root newId
      = some (newNodeAt newId text (getNodeDepth s.root X 0)) ∧
    getNodeDepth (addSiblingNode s X newId text).root newId 0
      = getNodeDepth s.root X 0 ∧
    (addSiblingNode s X newId text).selectedNodeId = some newId ∧
    (addSiblingNode s X newId text).history.length
      = min (s.historyIndex + 2) MAX_HISTORY ∧
    (addSiblingNode s X newId text).historyIndex
      = (addSiblingNode s X newId text).history.length - 1 ∧
    addSiblingNode v v.root.id n2 t2 = addNode v v.root.id n2 t2 := by
  have hroot : (addSiblingNode s X newId text).root
      = { s.root with children := addSiblingWalk (newNodeAt newId text (getNodeDepth s.root X 0)) X s.root.children } := by
    simp only [addSiblingNode, if_neg hne, hp]
    rfl
  have hsel : (addSiblingNode s X newId text).selectedNodeId = some newId := by
    simp only [addSiblingNode, if_neg hne, hp]
  have hhist : (addSiblingNode s X newId text).history
      = (saveToHistory ({ s.root with children := addSiblingWalk (newNodeAt newId text (getNodeDepth s.root X 0)) X s.root.children }) s).history := by
    simp only [addSiblingNode, if_neg hne, hp]
  have hhidx : (addSiblingNode s X newId text).historyIndex
      = (addSiblingNode s X newId text).history.length - 1 := by
    simp only [addSiblingNode, if_neg hne, hp]
    rfl
  obtain ⟨ta, tb, tc⟩ := addSiblingWalk_tree_spec s.root X
    (newNodeAt newId text (getNodeDepth s.root X 0)) P hnodup hfresh
    (fun he => hne he) hp
  refine ⟨?_, ?_, ?_, hsel, ?_, hhidx, ?_⟩
  · rw [hroot]
    rw [← insertAfterFirst_eq_insertIdx _ X P.children
      (findParentNode_child s.root X P hp)]
    exact ta
  · rw [hroot]; exact tb
  · rw [hroot]; exact tc 0 le_rfl
  · rw [hhist, saveToHistory_length s _ hidx hlen]
  · rw [addSiblingNode, if_pos rfl]

/-- A small concrete state for the C6 witness: the example tree as document,
history containing its single snapshot. -/
def c6State : MindMapState :=
  { root := exampleTree, selectedNodeId := some "r", history := [exampleTree],
    historyIndex := 0, zoom := 1, pan := (0, 0), preferences := DEFAULT_PREFERENCES }

/-- Witness for C6: adding a sibling of "a" (a child of the root) in the
concrete state. -/
theorem addSiblingNode_c6_witness :
    findNodeById (addSiblingNode c6State "a" "z" "Z").root exampleTree.id
      = some { exampleTree with children := exampleTree.children.insertIdx (exampleTree.children.findIdx (fun c => c.id == "a") + 1) (newNodeAt "z" "Z" (getNodeDepth c6State.root "a" 0)) } ∧
    findNodeById (addSiblingNode c6State "a" "z" "Z").root "z"
      = some (newNodeAt "z" "Z" (getNodeDepth c6State.root "a" 0)) ∧
    getNodeDepth (addSiblingNode c6State "a" "z" "Z").root "z" 0
      = getNodeDepth c6State.root "a" 0 ∧
    (addSiblingNode c6State "a" "z" "Z").selectedNodeId = some "z" ∧
    (addSiblingNode c6State "a" "z" "Z").history.length
      = min (c6State.historyIndex + 2) MAX_HISTORY ∧
    (addSiblingNode c6State "a" "z" "Z").historyIndex
      = (addSiblingNode c6State "a" "z" "Z").history.length - 1 ∧
    addSiblingNode c6State c6State.root.id "q" "Q"
      = addNode c6State c6State.root.id "q" "Q" :=
  addSiblingNode_c6 c6State "a" "z" "Z"
    (by simp [c6State, exampleTree, nodeA, nodeB, treeIds, subtreeNodes, subtreeNodesL])
    (by simp [c6State, exampleTree, nodeA, nodeB, treeIds, subtreeNodes, subtreeNodesL])
    (by simp [c6State, exampleTree])
    exampleTree
    (by rw [show c6State.root = exampleTree from rfl, findParentNode]
        rw [show exampleTree.children = [nodeA] from rfl, findParentNodeL]
        rw [if_pos (show nodeA.id = "a" from rfl)])
    (by simp [c6State])
    (by simp [c6State, MAX_HISTORY])
    c6State "q" "Q"

/-! ### C4: collision resolution -/

mutual
theorem shiftBox_zero (b : LBox) : shiftBox 0 b = b := by
  rw [shiftBox]
  have h := shiftBoxL_zero b.children
  cases b
  simp_all
termination_by sizeOf b
decreasing_by cases b; simp; try omega
theorem shiftBoxL_zero (l : List LBox) : shiftBoxL 0 l = l := by
  match l with
  | [] => rw [shiftBoxL]
  | c :: cs => rw [shiftBoxL, shiftBox_zero c, shiftBoxL_zero cs]
termination_by sizeOf l
decreasing_by all_goals (simp; try omega)
end

mutual
theorem shiftBox_shiftBox (a d : ℚ) (b : LBox) :
    shiftBox a (shiftBox d b) = shiftBox (a + d) b := by
  rw [shiftBox, shiftBox, shiftBox]
  have h := shiftBoxL_shiftBoxL a d b.children
  cases b
  simp_all
  ring
termination_by sizeOf b
decreasing_by cases b; simp; try omega
theorem shiftBoxL_shiftBoxL (a d : ℚ) (l : List LBox) :
    shiftBoxL a (shiftBoxL d l) = shiftBoxL (a + d) l := by
  match l with
  | [] => rw [shiftBoxL, shiftBoxL, shiftBoxL]
  | c :: cs =>
    rw [shiftBoxL, shiftBoxL, shiftBoxL, shiftBox_shiftBox a d c,
        shiftBoxL_shiftBoxL a d cs]
termination_by sizeOf l
decreasing_by all_goals (simp; try omega)
end

mutual
theorem lowest_shift (d : ℚ) (b : LBox) :
    getLowestDescendant (shiftBox d b) = getLowestDescendant b + d := by
  rw [getLowestDescendant, getLowestDescendant, shiftBox]
  show getLowestDescendantL (b.x + d + b.height / 2) (shiftBoxL d b.children)
      = getLowestDescendantL (b.x + b.height / 2) b.children + d
  have : b.x + d + b.height / 2 = (b.x + b.height / 2) + d := by ring
  rw [this]
  exact lowestL_shift d (b.x + b.height / 2) b.children
termination_by sizeOf b
decreasing_by cases b; simp; try omega
theorem lowestL_shift (d acc : ℚ) (l : List LBox) :
    getLowestDescendantL (acc + d) (shiftBoxL d l)
      = getLowestDescendantL acc l + d := by
  match l with
  | [] => rw [shiftBoxL, getLowestDescendantL, getLowestDescendantL]
  | c :: cs =>
    rw [shiftBoxL, getLowestDescendantL, getLowestDescendantL,
        lowest_shift d c]
    have : max (acc + d) (getLowestDescendant c + d)
        = max acc (getLowestDescendant c) + d := by
      rw [← max_add_add_right]
    rw [this]
    exact lowestL_shift d (max acc (getLowestDescendant c)) cs
termination_by sizeOf l
decreasing_by all_goals (simp; try omega)
end

mutual
theorem highest_shift (d : ℚ) (b : LBox) :
    getHighestDescendant (shiftBox d b) = getHighestDescendant b + d := by
  rw [getHighestDescendant, getHighestDescendant, shiftBox]
  show getHighestDescendantL (b.x + d - b.height / 2) (shiftBoxL d b.children)
      = getHighestDescendantL (b.x - b.height / 2) b.children + d
  have : b.x + d - b.height / 2 = (b.x - b.height / 2) + d := by ring
  rw [this]
  exact highestL_shift d (b.x - b.height / 2) b.children
termination_by sizeOf b
decreasing_by cases b; simp; try omega
theorem highestL_shift (d acc : ℚ) (l : List LBox) :
    getHighestDescendantL (acc + d) (shiftBoxL d l)
      = getHighestDescendantL acc l + d := by
  match l with
  | [] => rw [shiftBoxL, getHighestDescendantL, getHighestDescendantL]
  | c :: cs =>
    rw [shiftBoxL, getHighestDescendantL, getHighestDescendantL,
        highest_shift d c]
    have : min (acc + d) (getHighestDescendant c + d)
        = min acc (getHighestDescendant c) + d := by
      rw [← min_add_add_right]
    rw [this]
    exact highestL_shift d (min acc (getHighestDescendant c)) cs
termination_by sizeOf l
decreasing_by all_goals (simp; try omega)
end

theorem siblingShifts_shift (d : ℚ) (p : ℚ) (l : List LBox) :
    siblingShifts (p + d) (shiftBoxL d l) = siblingShifts p l := by
  induction l generalizing p with
  | nil => rw [shiftBoxL, siblingShifts, siblingShifts]
  | cons c cs ih =>
    rw [shiftBoxL, siblingShifts, siblingShifts]
    have hov : p + d + VERTICAL_PADDING - getHighestDescendant (shiftBox d c)
        = p + VERTICAL_PADDING - getHighestDescendant c := by
      rw [highest_shift]; ring
    rw [hov]
    have hid : (shiftBox d c).id = c.id := by rw [shiftBox]
    by_cases h0 : 0 < p + VERTICAL_PADDING - getHighestDescendant c
    · rw [if_pos h0, if_pos h0, hid]
      have harg : getLowestDescendant (shiftBox d c)
            + (p + VERTICAL_PADDING - getHighestDescendant c)
          = (getLowestDescendant c + (p + VERTICAL_PADDING - getHighestDescendant c)) + d := by
        rw [lowest_shift]; ring
      rw [harg, ih]
    · rw [if_neg h0, if_neg h0, hid]
      have harg : getLowestDescendant (shiftBox d c)
          = getLowestDescendant c + d := lowest_shift d c
      rw [harg, ih]

theorem insertByX_shift (d : ℚ) (a : LBox) (l : List LBox) :
    insertByX (shiftBox d a) (shiftBoxL d l) = shiftBoxL d (insertByX a l) := by
  induction l with
  | nil => rw [shiftBoxL, insertByX, insertByX, shiftBoxL, shiftBoxL]
  | cons b bs ih =>
    rw [shiftBoxL, insertByX, insertByX]
    have hx : (shiftBox d a).x = a.x + d := by rw [shiftBox]
    have hxb : (shiftBox d b).x = b.x + d := by rw [shiftBox]
    by_cases hle : a.x ≤ b.x
    · rw [if_pos (by rw [hx, hxb]; exact add_le_add_right hle d), if_pos hle,
          shiftBoxL, shiftBoxL]
    · rw [if_neg (by rw [hx, hxb]; exact fun hc => hle (by linarith)), if_neg hle,
          shiftBoxL, ih]

theorem sortByX_shift (d : ℚ) (l : List LBox) :
    sortByX (shiftBoxL d l) = shiftBoxL d (sortByX l) := by
  induction l with
  | nil => rw [shiftBoxL, sortByX, shiftBoxL]
  | cons c cs ih =>
    rw [shiftBoxL, sortByX, ih, insertByX_shift]
    conv_rhs => rw [sortByX]

/-- `adjustSiblings` with the subtype `attach` unfolded to a plain map. -/
theorem adjustSiblings_eq (n : LBox) :
    adjustSiblings n =
      (let sorted := sortByX n.children
       let shifts :=
         match sorted with
         | [] => (([] : List (String × ℚ)), false)
         | c :: cs => siblingShifts (getLowestDescendant c) cs
       let deep := n.children.map (fun c =>
         (shiftBox (deltaFor shifts.1 c.id) (adjustSiblings c).1, (adjustSiblings c).2))
       ({ n with children := deep.map Prod.fst }, shifts.2 || deep.any Prod.snd)) := by
  rw [adjustSiblings]
  simp

theorem shiftBoxL_eq_map (d : ℚ) (l : List LBox) :
    shiftBoxL d l = l.map (shiftBox d) := by
  induction l with
  | nil => rw [shiftBoxL, List.map_nil]
  | cons c cs ih => rw [shiftBoxL, List.map_cons, ih]

theorem siblingShifts_flag_false (p : ℚ) (l : List LBox)
    (h : (siblingShifts p l).2 = false) :
    ∀ q ∈ (siblingShifts p l).1, q.2 = 0 := by
  induction l generalizing p with
  | nil => rw [siblingShifts]; intro q hq; exact absurd hq (List.not_mem_nil q)
  | cons c cs ih =>
    rw [siblingShifts] at h ⊢
    by_cases h0 : 0 < p + VERTICAL_PADDING - getHighestDescendant c
    · rw [if_pos h0] at h; exact absurd h (by simp)
    · rw [if_neg h0] at h ⊢
      intro q hq
      rcases List.mem_cons.mp hq with he | hm
      · rw [he]
      · exact ih (getLowestDescendant c) h q hm

theorem deltaFor_zero (ds : List (String × ℚ)) (h : ∀ q ∈ ds, q.2 = 0)
    (z : String) : deltaFor ds z = 0 := by
  rw [deltaFor]
  rcases hf : ds.find? (fun p => p.1 == z) with _ | q
  · rw [hf]
  · rw [hf]
    exact h q (List.mem_of_find?_eq_some hf)

theorem adjustSiblings_flag_false (n : LBox)
    (h : (adjustSiblings n).2 = false) : (adjustSiblings n).1 = n := by
  rw [adjustSiblings_eq] at h ⊢
  simp only at h ⊢
  obtain ⟨h1, h2⟩ := Bool.or_eq_false_iff.mp h
  have hdeltas : ∀ z, deltaFor
      (match sortByX n.children with
       | [] => (([] : List (String × ℚ)), false)
       | c :: cs => siblingShifts (getLowestDescendant c) cs).1 z = 0 := by
    intro z
    rcases hs : sortByX n.children with _ | ⟨c, cs⟩
    · rw [deltaFor]; rfl
    · refine deltaFor_zero _ ?_ z
      refine siblingShifts_flag_false (getLowestDescendant c) cs ?_
      rw [hs] at h1
      exact h1
  have hflags : ∀ c ∈ n.children, (adjustSiblings c).2 = false := by
    intro c hc
    have h3 := List.any_eq_false.mp h2
    have h4 := h3 _ (List.mem_map_of_mem _ hc)
    simpa using h4
  have hch : (n.children.map (fun c =>
      (shiftBox (deltaFor
        (match sortByX n.children with
         | [] => (([] : List (String × ℚ)), false)
         | c :: cs => siblingShifts (getLowestDescendant c) cs).1 c.id)
        (adjustSiblings c).1, (adjustSiblings c).2))).map Prod.fst = n.children := by
    rw [List.map_map]
    have : ∀ c ∈ n.children,
        (Prod.fst ∘ fun c => (shiftBox (deltaFor
          (match sortByX n.children with
           | [] => (([] : List (String × ℚ)), false)
           | c :: cs => siblingShifts (getLowestDescendant c) cs).1 c.id)
          (adjustSiblings c).1, (adjustSiblings c).2)) c = id c := by
      intro c hc
      show shiftBox _ (adjustSiblings c).1 = c
      rw [hdeltas c.id, shiftBox_zero, adjustSiblings_flag_false c (hflags c hc)]
    rw [List.map_congr_left this, List.map_id]
  rw [hch]
  cases n
  rfl
termination_by sizeOf n
decreasing_by
  have := List.sizeOf_lt_of_mem hc
  cases n; simp_all; omega

theorem shiftBox_def (d : ℚ) (b : LBox) :
    shiftBox d b = { b with x := b.x + d, children := shiftBoxL d b.children } := by
  rw [shiftBox]

/-- The sibling deltas of one group (proof helper naming the inner
computation of `adjustSiblings`). -/
def groupShifts (n : LBox) : List (String × ℚ) × Bool :=
  match sortByX n.children with
  | [] => ([], false)
  | c :: cs => siblingShifts (getLowestDescendant c) cs

theorem adjustSiblings_fst (n : LBox) :
    (adjustSiblings n).1 = { n with children := n.children.map (fun c => shiftBox (deltaFor (groupShifts n).1 c.id) (adjustSiblings c).1) } := by
  rw [adjustSiblings_eq]
  show ({ n with children := _ } : LBox) = _
  refine congrArg _ ?_
  rw [List.map_map]
  rfl

theorem list_any_map (l : List LBox) (f : LBox → LBox × Bool) :
    (l.map f).any Prod.snd = l.any (fun c => (f c).2) := by
  induction l with
  | nil => rfl
  | cons c cs ih => simp only [List.map_cons, List.any_cons, ih]

theorem list_any_comp (l : List LBox) (g : LBox → LBox) (p : LBox → Bool) :
    (l.map g).any p = l.any (fun c => p (g c)) := by
  induction l with
  | nil => rfl
  | cons c cs ih => simp only [List.map_cons, List.any_cons, ih]

theorem adjustSiblings_snd (n : LBox) :
    (adjustSiblings n).2
      = ((groupShifts n).2 || n.children.any (fun c => (adjustSiblings c).2)) := by
  rw [adjustSiblings_eq]
  show ((groupShifts n).2
      || (List.map (fun c => (shiftBox (deltaFor (groupShifts n).1 c.id) (adjustSiblings c).1, (adjustSiblings c).2)) n.children).any Prod.snd)
    = ((groupShifts n).2 || n.children.any (fun c => (adjustSiblings c).2))
  refine congrArg _ ?_
  rw [list_any_map]

theorem list_any_congr (l : List LBox) (p q : LBox → Bool)
    (h : ∀ x ∈ l, p x = q x) : l.any p = l.any q := by
  induction l with
  | nil => rfl
  | cons c cs ih =>
    simp only [List.any_cons]
    rw [h c (List.mem_cons_self c cs), ih (fun x hx => h x (List.mem_cons_of_mem c hx))]

theorem groupShifts_shift (d : ℚ) (n : LBox) :
    groupShifts (shiftBox d n) = groupShifts n := by
  rw [groupShifts, groupShifts]
  have hcd : (shiftBox d n).children = shiftBoxL d n.children := by rw [shiftBox]
  rw [hcd, sortByX_shift]
  rcases hs : sortByX n.children with _ | ⟨c, cs⟩
  · rw [shiftBoxL]
  · rw [shiftBoxL]
    show siblingShifts (getLowestDescendant (shiftBox d c)) (shiftBoxL d cs) = _
    rw [lowest_shift]
    exact siblingShifts_shift d (getLowestDescendant c) cs

theorem adjustSiblings_shift (d : ℚ) (n : LBox) :
    adjustSiblings (shiftBox d n)
      = (shiftBox d (adjustSiblings n).1, (adjustSiblings n).2) := by
  have hcd : (shiftBox d n).children = shiftBoxL d n.children := by rw [shiftBox]
  refine Prod.ext ?_ ?_
  · rw [adjustSiblings_fst (shiftBox d n), adjustSiblings_fst n, groupShifts_shift,
        hcd, shiftBoxL_eq_map, List.map_map]
    have hmap : ∀ c ∈ n.children,
        ((fun c => shiftBox (deltaFor (groupShifts n).1 c.id) (adjustSiblings c).1)
          ∘ shiftBox d) c
        = shiftBox d (shiftBox (deltaFor (groupShifts n).1 c.id) (adjustSiblings c).1) := by
      intro c hc
      simp only [Function.comp]
      have hid : (shiftBox d c).id = c.id := by rw [shiftBox]
      rw [hid, adjustSiblings_shift d c]
      simp only []
      rw [shiftBox_shiftBox, shiftBox_shiftBox, add_comm]
    rw [List.map_congr_left hmap]
    have hM : (n.children.map (fun c => shiftBox d (shiftBox (deltaFor (groupShifts n).1 c.id) (adjustSiblings c).1)))
        = shiftBoxL d (n.children.map (fun c => shiftBox (deltaFor (groupShifts n).1 c.id) (adjustSiblings c).1)) := by
      rw [shiftBoxL_eq_map, List.map_map]
      rfl
    rw [hM, shiftBox_def d n,
        shiftBox_def d ({ n with children := n.children.map (fun c => shiftBox (deltaFor (groupShifts n).1 c.id) (adjustSiblings c).1) } : LBox)]
  · rw [adjustSiblings_snd (shiftBox d n), adjustSiblings_snd n, groupShifts_shift,
        hcd, shiftBoxL_eq_map, list_any_comp]
    refine congrArg _ ?_
    refine list_any_congr n.children _ _ ?_
    intro c hc
    rw [adjustSiblings_shift d c]
termination_by sizeOf n
decreasing_by
  all_goals (have h9 := List.sizeOf_lt_of_mem hc; cases n; simp_all; omega)

theorem shiftBox_x (d : ℚ) (b : LBox) : (shiftBox d b).x = b.x + d := by rw [shiftBox]

theorem shiftBox_id (d : ℚ) (b : LBox) : (shiftBox d b).id = b.id := by rw [shiftBox]

theorem shiftBox_height (d : ℚ) (b : LBox) : (shiftBox d b).height = b.height := by
  rw [shiftBox]

theorem shiftBox_left (d : ℚ) (b : LBox) : (shiftBox d b).left = b.left := by
  rw [shiftBox]

theorem shiftBox_right (d : ℚ) (b : LBox) : (shiftBox d b).right = b.right := by
  rw [shiftBox]

theorem siblingShifts_cons (p : ℚ) (c : LBox) (cs : List LBox) :
    siblingShifts p (c :: cs)
      = if 0 < p + VERTICAL_PADDING - getHighestDescendant c
        then ((c.id, p + VERTICAL_PADDING - getHighestDescendant c)
                :: (siblingShifts (getLowestDescendant c
                      + (p + VERTICAL_PADDING - getHighestDescendant c)) cs).1, true)
        else ((c.id, 0) :: (siblingShifts (getLowestDescendant c) cs).1,
              (siblingShifts (getLowestDescendant c) cs).2) := by
  rw [siblingShifts]

theorem scenario_sort (A B : LBox) (hAB : A.x ≤ B.x) : sortByX [A, B] = [A, B] := by
  rw [sortByX, sortByX, sortByX, insertByX, insertByX, if_pos hAB]

theorem scenario_groupShifts (P A B : LBox) (hch : P.children = [A, B])
    (hAB : A.x ≤ B.x)
    (hov : getLowestDescendant A - getHighestDescendant B = 30) :
    groupShifts P = ([(B.id, 30 + VERTICAL_PADDING)], true) := by
  rw [groupShifts, hch, scenario_sort A B hAB]
  show siblingShifts (getLowestDescendant A) [B] = _
  rw [siblingShifts_cons]
  have hovq : getLowestDescendant A + VERTICAL_PADDING - getHighestDescendant B
      = 30 + VERTICAL_PADDING := by linarith
  rw [hovq, if_pos (by rw [VERTICAL_PADDING]; norm_num), siblingShifts]

theorem scenario_pass1 (P A B : LBox) (hch : P.children = [A, B])
    (hAB : A.x ≤ B.x) (hids : A.id ≠ B.id)
    (hov : getLowestDescendant A - getHighestDescendant B = 30)
    (hA : adjustSiblings A = (A, false)) (hB : adjustSiblings B = (B, false)) :
    adjustSiblings P
      = ({ P with children := [A, shiftBox (30 + VERTICAL_PADDING) B] }, true) := by
  have hgs := scenario_groupShifts P A B hch hAB hov
  have hdA : deltaFor [(B.id, 30 + VERTICAL_PADDING)] A.id = 0 := by
    rw [deltaFor]
    have hbeq : (B.id == A.id) = false := beq_eq_false_iff_ne.mpr (fun he => hids he.symm)
    rw [List.find?]
    rw [hbeq]
    rw [List.find?]
  have hdB : deltaFor [(B.id, 30 + VERTICAL_PADDING)] B.id = 30 + VERTICAL_PADDING := by
    rw [deltaFor]
    have hbeq : (B.id == B.id) = true := beq_self_eq_true B.id
    rw [List.find?]
    rw [hbeq]
  refine Prod.ext ?_ ?_
  · rw [adjustSiblings_fst, hgs, hch]
    show ({ P with children := [shiftBox (deltaFor [(B.id, 30 + VERTICAL_PADDING)] A.id) (adjustSiblings A).1, shiftBox (deltaFor [(B.id, 30 + VERTICAL_PADDING)] B.id) (adjustSiblings B).1] } : LBox) = _
    rw [hdA, hdB, hA, hB]
    show ({ P with children := [shiftBox 0 A, shiftBox (30 + VERTICAL_PADDING) B] } : LBox) = _
    rw [shiftBox_zero]
  · rw [adjustSiblings_snd, hgs]
    rfl

theorem scenario_pass2 (P A B : LBox) (_hch : P.children = [A, B])
    (hAB : A.x ≤ B.x) (hids : A.id ≠ B.id)
    (hov : getLowestDescendant A - getHighestDescendant B = 30)
    (hA : adjustSiblings A = (A, false)) (hB : adjustSiblings B = (B, false)) :
    adjustSiblings ({ P with children := [A, shiftBox (30 + VERTICAL_PADDING) B] } : LBox)
      = (({ P with children := [A, shiftBox (30 + VERTICAL_PADDING) B] } : LBox), false) := by
  have hAB2 : A.x ≤ (shiftBox (30 + VERTICAL_PADDING) B).x := by
    rw [shiftBox_x, VERTICAL_PADDING]
    have : (0 : ℚ) ≤ 38 := by norm_num
    linarith
  have hgs : groupShifts ({ P with children := [A, shiftBox (30 + VERTICAL_PADDING) B] } : LBox)
      = ([(B.id, 0)], false) := by
    rw [groupShifts]
    show (match sortByX [A, shiftBox (30 + VERTICAL_PADDING) B] with
          | [] => (([] : List (String × ℚ)), false)
          | c :: cs => siblingShifts (getLowestDescendant c) cs) = _
    rw [scenario_sort A _ hAB2]
    show siblingShifts (getLowestDescendant A) [shiftBox (30 + VERTICAL_PADDING) B] = _
    rw [siblingShifts_cons]
    have hov0 : getLowestDescendant A + VERTICAL_PADDING
        - getHighestDescendant (shiftBox (30 + VERTICAL_PADDING) B) = 0 := by
      rw [highest_shift]
      linarith
    rw [hov0, if_neg (by norm_num), siblingShifts, shiftBox_id]
  have hadjB2 : adjustSiblings (shiftBox (30 + VERTICAL_PADDING) B)
      = (shiftBox (30 + VERTICAL_PADDING) B, false) := by
    rw [adjustSiblings_shift, hB]
  have hdA : deltaFor [(B.id, 0)] A.id = 0 := by
    rw [deltaFor]
    have hbeq : (B.id == A.id) = false := beq_eq_false_iff_ne.mpr (fun he => hids he.symm)
    rw [List.find?]
    rw [hbeq]
    rw [List.find?]
  have hdB : deltaFor [(B.id, 0)] B.id = 0 := by
    rw [deltaFor]
    have hbeq : (B.id == B.id) = true := beq_self_eq_true B.id
    rw [List.find?]
    rw [hbeq]
  refine Prod.ext ?_ ?_
  · rw [adjustSiblings_fst, hgs]
    show ({ P with children := [shiftBox (deltaFor [(B.id, 0)] A.id) (adjustSiblings A).1, shiftBox (deltaFor [(B.id, 0)] (shiftBox (30 + VERTICAL_PADDING) B).id) (adjustSiblings (shiftBox (30 + VERTICAL_PADDING) B)).1] } : LBox) = _
    rw [shiftBox_id, hdA, hdB, hA, hadjB2]
    show ({ P with children := [shiftBox 0 A, shiftBox 0 (shiftBox (30 + VERTICAL_PADDING) B)] } : LBox) = _
    rw [shiftBox_zero, shiftBox_zero]
  · rw [adjustSiblings_snd, hgs]
    show (false || ([A, shiftBox (30 + VERTICAL_PADDING) B].any (fun c => (adjustSiblings c).2))) = false
    rw [Bool.false_or]
    show (((adjustSiblings A).2 || ([shiftBox (30 + VERTICAL_PADDING) B].any (fun c => (adjustSiblings c).2)))) = false
    rw [hA]
    show ((false : Bool) || ((adjustSiblings (shiftBox (30 + VERTICAL_PADDING) B)).2 || false)) = false
    rw [hadjB2]
    rfl

theorem scenario_resolve (P A B : LBox) (hch : P.children = [A, B])
    (hAB : A.x ≤ B.x) (hids : A.id ≠ B.id)
    (hov : getLowestDescendant A - getHighestDescendant B = 30)
    (hA : adjustSiblings A = (A, false)) (hB : adjustSiblings B = (B, false)) :
    resolveCollisions P
      = ({ P with children := [A, shiftBox (30 + VERTICAL_PADDING) B] } : LBox) := by
  rw [resolveCollisions]
  show adjustLoop (9 + 1) P = _
  rw [adjustLoop]
  rw [scenario_pass1 P A B hch hAB hids hov hA hB]
  show adjustLoop 9 ({ P with children := [A, shiftBox (30 + VERTICAL_PADDING) B] } : LBox) = _
  show adjustLoop (8 + 1) ({ P with children := [A, shiftBox (30 + VERTICAL_PADDING) B] } : LBox) = _
  rw [adjustLoop]
  rw [scenario_pass2 P A B hch hAB hids hov hA hB]
  rw [if_neg (by simp)]

theorem lowestL_le (acc : ℚ) (l : List LBox) : acc ≤ getLowestDescendantL acc l := by
  induction l generalizing acc with
  | nil => rw [getLowestDescendantL]
  | cons c cs ih =>
    rw [getLowestDescendantL]
    exact le_trans (le_max_left _ _) (ih (max acc (getLowestDescendant c)))

theorem highestL_ge (acc : ℚ) (l : List LBox) : getHighestDescendantL acc l ≤ acc := by
  induction l generalizing acc with
  | nil => rw [getHighestDescendantL]
  | cons c cs ih =>
    rw [getHighestDescendantL]
    exact le_trans (ih (min acc (getHighestDescendant c))) (min_le_left _ _)

mutual
theorem mem_le_lowest (t : LBox) (b : LBox) (hb : b ∈ allBoxes t) :
    boxBottom b ≤ getLowestDescendant t := by
  rw [allBoxes] at hb
  rw [getLowestDescendant]
  rcases List.mem_cons.mp hb with he | hm
  · rw [he]
    exact lowestL_le _ _
  · exact mem_le_lowestL (t.x + t.height / 2) t.children b hm
termination_by sizeOf t
decreasing_by all_goals (cases t; simp; try omega)
theorem mem_le_lowestL (acc : ℚ) (l : List LBox) (b : LBox)
    (hb : b ∈ allBoxesL l) : boxBottom b ≤ getLowestDescendantL acc l := by
  match l with
  | [] => rw [allBoxesL] at hb; exact absurd hb (List.not_mem_nil b)
  | c :: cs =>
    rw [allBoxesL] at hb
    rw [getLowestDescendantL]
    rcases List.mem_append.mp hb with h1 | h2
    · refine le_trans (mem_le_lowest c b h1) ?_
      refine le_trans (le_max_right acc _) ?_
      exact lowestL_le _ _
    · exact mem_le_lowestL _ cs b h2
termination_by sizeOf l
decreasing_by all_goals (simp; try omega)
end

mutual
theorem mem_ge_highest (t : LBox) (b : LBox) (hb : b ∈ allBoxes t) :
    getHighestDescendant t ≤ boxTop b := by
  rw [allBoxes] at hb
  rw [getHighestDescendant]
  rcases List.mem_cons.mp hb with he | hm
  · rw [he]
    exact highestL_ge _ _
  · exact mem_ge_highestL (t.x - t.height / 2) t.children b hm
termination_by sizeOf t
decreasing_by all_goals (cases t; simp; try omega)
theorem mem_ge_highestL (acc : ℚ) (l : List LBox) (b : LBox)
    (hb : b ∈ allBoxesL l) : getHighestDescendantL acc l ≤ boxTop b := by
  match l with
  | [] => rw [allBoxesL] at hb; exact absurd hb (List.not_mem_nil b)
  | c :: cs =>
    rw [allBoxesL] at hb
    rw [getHighestDescendantL]
    rcases List.mem_append.mp hb with h1 | h2
    · refine le_trans ?_ (mem_ge_highest c b h1)
      refine le_trans (highestL_ge _ _) ?_
      exact min_le_right acc _
    · exact mem_ge_highestL _ cs b h2
termination_by sizeOf l
decreasing_by all_goals (simp; try omega)
end

theorem mem_allBoxes_self (t : LBox) : t ∈ allBoxes t := by
  rw [allBoxes]; exact List.mem_cons_self t _

theorem highest_le_lowest (t : LBox) (hh : 0 ≤ t.height) :
    getHighestDescendant t ≤ getLowestDescendant t := by
  have h1 := mem_ge_highest t t (mem_allBoxes_self t)
  have h2 := mem_le_lowest t t (mem_allBoxes_self t)
  rw [boxTop] at h1
  rw [boxBottom] at h2
  linarith

/-- Subtree `s` sits entirely above subtree `t`, with the padding gap. -/
def Below (s t : LBox) : Prop :=
  getLowestDescendant s + VERTICAL_PADDING ≤ getHighestDescendant t

theorem shifts_false_pairwise (l : List LBox) (p : ℚ)
    (hh : ∀ c ∈ l, getHighestDescendant c ≤ getLowestDescendant c)
    (hflag : (siblingShifts p l).2 = false) :
    (∀ c ∈ l, p + VERTICAL_PADDING ≤ getHighestDescendant c) ∧
    List.Pairwise Below l := by
  induction l generalizing p with
  | nil => exact ⟨fun c hc => absurd hc (List.not_mem_nil c), List.Pairwise.nil⟩
  | cons c cs ih =>
    rw [siblingShifts_cons] at hflag
    by_cases h0 : 0 < p + VERTICAL_PADDING - getHighestDescendant c
    · rw [if_pos h0] at hflag
      exact absurd hflag (by simp)
    · rw [if_neg h0] at hflag
      have hsep : p + VERTICAL_PADDING ≤ getHighestDescendant c := by
        push_neg at h0
        linarith
    -- the rest of the walk starts from the lowest point of c
      obtain ⟨hfirst, hpw⟩ := ih (getLowestDescendant c)
        (fun d hd => hh d (List.mem_cons_of_mem c hd)) hflag
      have hcl : getHighestDescendant c ≤ getLowestDescendant c :=
        hh c (List.mem_cons_self c cs)
      have hpad : (0 : ℚ) ≤ VERTICAL_PADDING := by rw [VERTICAL_PADDING]; norm_num
      refine ⟨?_, ?_⟩
      · intro d hd
        rcases List.mem_cons.mp hd with he | hm
        · rw [he]; exact hsep
        · have := hfirst d hm
          linarith
      · refine List.Pairwise.cons ?_ hpw
        intro d hd
        exact hfirst d hd

theorem insertByX_perm (a : LBox) (l : List LBox) :
    (insertByX a l).Perm (a :: l) := by
  induction l with
  | nil => rw [insertByX]
  | cons b bs ih =>
    rw [insertByX]
    by_cases hle : a.x ≤ b.x
    · rw [if_pos hle]
    · rw [if_neg hle]
      exact List.Perm.trans (List.Perm.cons b ih) (List.Perm.swap a b bs)

theorem sortByX_perm (l : List LBox) : (sortByX l).Perm l := by
  induction l with
  | nil => rw [sortByX]
  | cons a rest ih =>
    rw [sortByX]
    exact List.Perm.trans (insertByX_perm a (sortByX rest)) (List.Perm.cons a ih)

/-- Either subtree clears the other vertically (symmetric closure of
`Below`). -/
def VSep (s t : LBox) : Prop := Below s t ∨ Below t s

theorem vsep_symm : Symmetric VSep := by
  intro s t h
  rcases h with h | h
  · exact Or.inr h
  · exact Or.inl h

/-- A pass that makes no adjustment leaves every sibling group of the tree
vertically separated and every child subtree itself pass-fixed. -/
theorem fix_components (n : LBox) (hfix : adjustSiblings n = (n, false)) :
    (groupShifts n).2 = false ∧
    ∀ c ∈ n.children, adjustSiblings c = (c, false) := by
  have hsnd : (adjustSiblings n).2 = false := by rw [hfix]
  rw [adjustSiblings_snd] at hsnd
  obtain ⟨h1, h2⟩ := Bool.or_eq_false_iff.mp hsnd
  refine ⟨h1, ?_⟩
  intro c hc
  have hval := List.any_eq_false.mp h2 c hc
  have hflag : (adjustSiblings c).2 = false := by simpa using hval
  exact Prod.ext (adjustSiblings_flag_false c hflag) hflag

theorem mem_allBoxesL_iff (l : List LBox) (b : LBox) :
    b ∈ allBoxesL l ↔ ∃ c ∈ l, b ∈ allBoxes c := by
  induction l with
  | nil =>
    rw [allBoxesL]
    simp
  | cons c cs ih =>
    rw [allBoxesL]
    simp only [List.mem_append, ih, List.mem_cons]
    constructor
    · rintro (h | ⟨d, hd1, hd2⟩)
      · exact ⟨c, Or.inl rfl, h⟩
      · exact ⟨d, Or.inr hd1, hd2⟩
    · rintro ⟨d, hd1 | hd1, hd2⟩
      · exact Or.inl (hd1 ▸ hd2)
      · exact Or.inr ⟨d, hd1, hd2⟩

theorem vsep_no_overlap (c d a b : LBox) (hS : VSep c d)
    (ha : a ∈ allBoxes c) (hb : b ∈ allBoxes d) : ¬ boxesOverlap a b := by
  have hpad : (0 : ℚ) < VERTICAL_PADDING := by rw [VERTICAL_PADDING]; norm_num
  intro hov
  rw [boxesOverlap] at hov
  rcases hS with h | h
  · have h1 := mem_le_lowest c a ha
    have h2 := mem_ge_highest d b hb
    rw [Below] at h
    have : boxTop b < boxBottom a := hov.2.2.2
    linarith
  · have h1 := mem_le_lowest d b hb
    have h2 := mem_ge_highest c a ha
    rw [Below] at h
    have : boxTop a < boxBottom b := hov.2.2.1
    linarith


/-! ### C4: collision scenario and global non-overlap after resolution -/

mutual
/-- Horizontal layering produced by `assignHorizontalPositions`: every box
strictly below a node lies entirely to the right of the node's right edge,
recursively at every node of the tree. -/
def HorizSep (b : LBox) : Prop :=
  (∀ c ∈ allBoxesL b.children, b.right ≤ c.left) ∧ HorizSepL b.children
termination_by sizeOf b
decreasing_by cases b; simp; try omega
def HorizSepL : List LBox → Prop
  | [] => True
  | c :: cs => HorizSep c ∧ HorizSepL cs
termination_by l => sizeOf l
decreasing_by all_goals (simp; try omega)
end

theorem horizSepL_mem (l : List LBox) (c : LBox) (hc : c ∈ l)
    (h : HorizSepL l) : HorizSep c := by
  induction l with
  | nil => exact absurd hc (List.not_mem_nil c)
  | cons d ds ih =>
    rw [HorizSepL] at h
    rcases List.mem_cons.mp hc with he | hm
    · rw [he]; exact h.1
    · exact ih hm h.2

theorem shiftBox_children (d : ℚ) (b : LBox) :
    (shiftBox d b).children = shiftBoxL d b.children := by
  rw [shiftBox]

theorem groupShifts_eq_of_sort (n c : LBox) (cs : List LBox)
    (hs : sortByX n.children = c :: cs) :
    groupShifts n = siblingShifts (getLowestDescendant c) cs := by
  rw [groupShifts, hs]

mutual
theorem allBoxes_shift (d : ℚ) (t : LBox) :
    allBoxes (shiftBox d t) = (allBoxes t).map (shiftBox d) := by
  rw [allBoxes, allBoxes, List.map_cons, shiftBox_children,
      allBoxesL_shift d t.children]
termination_by sizeOf t
decreasing_by all_goals (cases t; simp; try omega)
theorem allBoxesL_shift (d : ℚ) (l : List LBox) :
    allBoxesL (shiftBoxL d l) = (allBoxesL l).map (shiftBox d) := by
  match l with
  | [] =>
    rw [shiftBoxL, allBoxesL, List.map_nil]
  | c :: cs =>
    rw [shiftBoxL, allBoxesL, allBoxesL, List.map_append,
        allBoxes_shift d c, allBoxesL_shift d cs]
termination_by sizeOf l
decreasing_by all_goals (simp; try omega)
end

theorem allBoxes_shift_x (d : ℚ) (t : LBox) :
    (allBoxes (shiftBox d t)).map (fun b => b.x)
      = (allBoxes t).map (fun b => b.x + d) := by
  rw [allBoxes_shift, List.map_map]
  refine List.map_congr_left ?_
  intro b _
  show (shiftBox d b).x = b.x + d
  exact shiftBox_x d b

theorem mem_allBoxesL_pair (a c b : LBox) :
    b ∈ allBoxesL [a, c] ↔ b ∈ allBoxes a ∨ b ∈ allBoxes c := by
  rw [allBoxesL, allBoxesL, allBoxesL]
  simp

theorem horizSepL_pair (a c : LBox) (ha : HorizSep a) (hc : HorizSep c) :
    HorizSepL [a, c] := by
  rw [HorizSepL, HorizSepL, HorizSepL]
  exact ⟨ha, hc, trivial⟩

mutual
theorem horizSep_shift (d : ℚ) (t : LBox) (h : HorizSep t) :
    HorizSep (shiftBox d t) := by
  rw [HorizSep] at h ⊢
  rw [shiftBox_children]
  constructor
  · intro c hc
    rw [allBoxesL_shift] at hc
    obtain ⟨b, hb, he⟩ := List.mem_map.mp hc
    rw [← he, shiftBox_left, shiftBox_right]
    exact h.1 b hb
  · exact horizSepL_shift d t.children h.2
termination_by sizeOf t
decreasing_by all_goals (cases t; simp; try omega)
theorem horizSepL_shift (d : ℚ) (l : List LBox) (h : HorizSepL l) :
    HorizSepL (shiftBoxL d l) := by
  match l with
  | [] =>
    rw [shiftBoxL]
    exact h
  | c :: cs =>
    rw [HorizSepL] at h
    rw [shiftBoxL, HorizSepL]
    exact ⟨horizSep_shift d c h.1, horizSepL_shift d cs h.2⟩
termination_by sizeOf l
decreasing_by all_goals (simp; try omega)
end

theorem pairwise_no_overlap_append (c : LBox) (cs : List LBox)
    (h1 : List.Pairwise (fun a b => ¬ boxesOverlap a b) (allBoxes c))
    (h2 : List.Pairwise (fun a b => ¬ boxesOverlap a b) (allBoxesL cs))
    (hcross : ∀ a ∈ allBoxes c, ∀ b ∈ allBoxesL cs, ¬ boxesOverlap a b) :
    List.Pairwise (fun a b => ¬ boxesOverlap a b) (allBoxesL (c :: cs)) := by
  rw [allBoxesL]
  exact List.pairwise_append.mpr ⟨h1, h2, hcross⟩

theorem no_overlap_forest (l : List LBox)
    (hrec : ∀ c ∈ l, List.Pairwise (fun a b => ¬ boxesOverlap a b) (allBoxes c))
    (hS : List.Pairwise VSep l) :
    List.Pairwise (fun a b => ¬ boxesOverlap a b) (allBoxesL l) := by
  induction l with
  | nil => rw [allBoxesL]; exact List.Pairwise.nil
  | cons c cs ih =>
    obtain ⟨hhd, htl⟩ := List.pairwise_cons.mp hS
    refine pairwise_no_overlap_append c cs
      (hrec c (List.mem_cons_self c cs))
      (ih (fun d hd => hrec d (List.mem_cons_of_mem c hd)) htl) ?_
    intro a ha b hb
    obtain ⟨d, hd1, hd2⟩ := (mem_allBoxesL_iff cs b).mp hb
    exact vsep_no_overlap c d a b (hhd d hd1) ha hd2

/-- A pass-fixed (`adjustSiblings` reports no change), horizontally layered
tree whose boxes all have non-negative height contains no overlapping pair
of boxes. -/
theorem no_overlap_of_fix (n : LBox) (hfix : adjustSiblings n = (n, false))
    (hhor : HorizSep n) (hh : ∀ b ∈ allBoxes n, 0 ≤ b.height) :
    List.Pairwise (fun a b => ¬ boxesOverlap a b) (allBoxes n) := by
  obtain ⟨hflag, hchildren⟩ := fix_components n hfix
  rw [HorizSep] at hhor
  have hmemall : ∀ b ∈ allBoxesL n.children, b ∈ allBoxes n := by
    intro b hb
    rw [allBoxes]
    exact List.mem_cons_of_mem n hb
  have hrec : ∀ c ∈ n.children,
      List.Pairwise (fun a b => ¬ boxesOverlap a b) (allBoxes c) := by
    intro c hc
    refine no_overlap_of_fix c (hchildren c hc)
      (horizSepL_mem n.children c hc hhor.2) ?_
    intro b hb
    exact hh b (hmemall b ((mem_allBoxesL_iff n.children b).mpr ⟨c, hc, hb⟩))
  have hhl : ∀ c ∈ n.children, getHighestDescendant c ≤ getLowestDescendant c := by
    intro c hc
    refine highest_le_lowest c (hh c (hmemall c ?_))
    exact (mem_allBoxesL_iff n.children c).mpr ⟨c, hc, mem_allBoxes_self c⟩
  have hpwchildren : List.Pairwise VSep n.children := by
    have hpwsort : List.Pairwise Below (sortByX n.children) := by
      rcases hs : sortByX n.children with _ | ⟨c, cs⟩
      · exact List.Pairwise.nil
      · have hflag2 : (siblingShifts (getLowestDescendant c) cs).2 = false := by
          rw [groupShifts_eq_of_sort n c cs hs] at hflag
          exact hflag
        have hmemcs : ∀ d ∈ cs, d ∈ n.children := by
          intro d hd
          have hd2 : d ∈ sortByX n.children := by
            rw [hs]
            exact List.mem_cons_of_mem c hd
          exact (sortByX_perm n.children).mem_iff.mp hd2
        obtain ⟨hhead, hpw⟩ := shifts_false_pairwise cs (getLowestDescendant c)
          (fun d hd => hhl d (hmemcs d hd)) hflag2
        exact List.Pairwise.cons (fun d hd => hhead d hd) hpw
    have h1 : List.Pairwise VSep (sortByX n.children) :=
      hpwsort.imp (fun h => Or.inl h)
    exact ((sortByX_perm n.children).pairwise_iff (fun h => vsep_symm h)).mp h1
  have hforest := no_overlap_forest n.children hrec hpwchildren
  rw [allBoxes]
  refine List.Pairwise.cons ?_ hforest
  intro b hb hov
  rw [boxesOverlap] at hov
  have hrt := hhor.1 b hb
  linarith [hov.2.1]
termination_by sizeOf n
decreasing_by have := List.sizeOf_lt_of_mem hc; cases n; simp_all; omega

theorem groupShifts_eq_of_sort_nil (n : LBox) (hs : sortByX n.children = []) :
    groupShifts n = ([], false) := by
  rw [groupShifts, hs]

theorem groupShifts_deltas_zero (n : LBox) (hflag : (groupShifts n).2 = false)
    (z : String) : deltaFor (groupShifts n).1 z = 0 := by
  rcases hs : sortByX n.children with _ | ⟨c, cs⟩
  · rw [groupShifts_eq_of_sort_nil n hs, deltaFor]
    rfl
  · rw [groupShifts_eq_of_sort n c cs hs] at hflag ⊢
    exact deltaFor_zero _ (siblingShifts_flag_false _ _ hflag) z

/-- A node whose sibling group needs no shift and whose children are all
pass-fixed is itself pass-fixed. -/
theorem adjustSiblings_fix_intro (n : LBox)
    (hflag : (groupShifts n).2 = false)
    (hkids : ∀ c ∈ n.children, adjustSiblings c = (c, false)) :
    adjustSiblings n = (n, false) := by
  refine Prod.ext ?_ ?_
  · rw [adjustSiblings_fst]
    have hmap : ∀ c ∈ n.children,
        (fun c => shiftBox (deltaFor (groupShifts n).1 c.id) (adjustSiblings c).1) c
          = id c := by
      intro c hc
      show shiftBox _ (adjustSiblings c).1 = c
      rw [groupShifts_deltas_zero n hflag c.id, shiftBox_zero, hkids c hc]
    rw [List.map_congr_left hmap, List.map_id]
    cases n
    rfl
  · rw [adjustSiblings_snd, hflag, Bool.false_or]
    refine List.any_eq_false.mpr ?_
    intro c hc
    rw [hkids c hc]
    simp

theorem adjustSiblings_leaf (n : LBox) (hch : n.children = []) :
    adjustSiblings n = (n, false) := by
  refine adjustSiblings_fix_intro n ?_ ?_
  · rw [groupShifts_eq_of_sort_nil n (by rw [hch, sortByX])]
  · intro c hc
    rw [hch] at hc
    exact absurd hc (List.not_mem_nil c)

theorem adjustSiblings_single (n c : LBox) (hch : n.children = [c])
    (hc : adjustSiblings c = (c, false)) : adjustSiblings n = (n, false) := by
  refine adjustSiblings_fix_intro n ?_ ?_
  · have hs : sortByX n.children = [c] := by rw [hch, sortByX, sortByX, insertByX]
    rw [groupShifts_eq_of_sort n c [] hs, siblingShifts]
  · intro d hd
    rw [hch] at hd
    rcases List.mem_cons.mp hd with he | hm
    · rw [he]
      exact hc
    · exact absurd hm (List.not_mem_nil d)

/-- C4: in the automatic-layout collision scenario — two sibling subtrees
`A` and `B` under parent `P`, each already internally collision-free, with
`B`'s highest descendant edge overlapping `A`'s lowest descendant edge by
30 pixels — the iterative resolver (`resolveCollisions`, capped at
`MAX_ITERATIONS = 10` passes) moves `B` and every descendant of `B` down
by exactly 30 pixels plus the `VERTICAL_PADDING` margin (hence by at least
that much), leaves `A` in place, and afterwards no pair of node boxes in
the tree overlaps. -/
theorem collision_resolution_c4 (P A B : LBox)
    (hch : P.children = [A, B]) (hAB : A.x ≤ B.x) (hids : A.id ≠ B.id)
    (hov : getLowestDescendant A - getHighestDescendant B = 30)
    (hA : adjustSiblings A = (A, false)) (hB : adjustSiblings B = (B, false))
    (hhor : HorizSep P) (hh : ∀ b ∈ allBoxes P, 0 ≤ b.height) :
    resolveCollisions P = ({ P with children := [A, shiftBox (30 + VERTICAL_PADDING) B] } : LBox) ∧
    (allBoxes (shiftBox (30 + VERTICAL_PADDING) B)).map (fun b => b.x)
      = (allBoxes B).map (fun b => b.x + (30 + VERTICAL_PADDING)) ∧
    List.Pairwise (fun a b => ¬ boxesOverlap a b) (allBoxes (resolveCollisions P)) := by
  have hres := scenario_resolve P A B hch hAB hids hov hA hB
  have hfixQ := scenario_pass2 P A B hch hAB hids hov hA hB
  rw [HorizSep] at hhor
  have hsepAB : HorizSepL [A, B] := by
    have h2 := hhor.2
    rw [hch] at h2
    exact h2
  have hsepA : HorizSep A := horizSepL_mem [A, B] A (by simp) hsepAB
  have hsepB : HorizSep B := horizSepL_mem [A, B] B (by simp) hsepAB
  have hmemP : ∀ b ∈ allBoxesL [A, B], b ∈ allBoxes P := by
    intro b hb
    rw [allBoxes]
    refine List.mem_cons_of_mem P ?_
    rw [hch]
    exact hb
  have hhorQ : HorizSep ({ P with children := [A, shiftBox (30 + VERTICAL_PADDING) B] } : LBox) := by
    rw [HorizSep]
    constructor
    · intro c hc
      have hc2 : c ∈ allBoxesL [A, shiftBox (30 + VERTICAL_PADDING) B] := hc
      show P.right ≤ c.left
      rcases (mem_allBoxesL_pair A (shiftBox (30 + VERTICAL_PADDING) B) c).mp hc2 with h1 | h2
      · refine hhor.1 c ?_
        rw [hch, mem_allBoxesL_pair]
        exact Or.inl h1
      · rw [allBoxes_shift] at h2
        obtain ⟨b0, hb0, he⟩ := List.mem_map.mp h2
        rw [← he, shiftBox_left]
        refine hhor.1 b0 ?_
        rw [hch, mem_allBoxesL_pair]
        exact Or.inr hb0
    · show HorizSepL [A, shiftBox (30 + VERTICAL_PADDING) B]
      exact horizSepL_pair A (shiftBox (30 + VERTICAL_PADDING) B) hsepA
        (horizSep_shift (30 + VERTICAL_PADDING) B hsepB)
  have hhQ : ∀ b ∈ allBoxes ({ P with children := [A, shiftBox (30 + VERTICAL_PADDING) B] } : LBox), 0 ≤ b.height := by
    intro b hb
    rw [allBoxes] at hb
    rcases List.mem_cons.mp hb with he | hm
    · rw [he]
      show 0 ≤ P.height
      exact hh P (mem_allBoxes_self P)
    · have hm2 : b ∈ allBoxesL [A, shiftBox (30 + VERTICAL_PADDING) B] := hm
      rcases (mem_allBoxesL_pair A (shiftBox (30 + VERTICAL_PADDING) B) b).mp hm2 with h1 | h2
      · refine hh b (hmemP b ?_)
        rw [mem_allBoxesL_pair]
        exact Or.inl h1
      · rw [allBoxes_shift] at h2
        obtain ⟨b0, hb0, he⟩ := List.mem_map.mp h2
        rw [← he, shiftBox_height]
        refine hh b0 (hmemP b0 ?_)
        rw [mem_allBoxesL_pair]
        exact Or.inr hb0
  refine ⟨hres, allBoxes_shift_x (30 + VERTICAL_PADDING) B, ?_⟩
  rw [hres]
  exact no_overlap_of_fix _ hfixQ hhorQ hhQ

/-- Concrete layout for the C4 scenario: a leaf hanging under sibling
`c4A`, whose lowest descendant edge (40) overlaps sibling `c4B`'s highest
edge (10) by exactly 30. -/
def c4a1 : LBox := ⟨"a1", 30, 20, 40, 50, []⟩

/-- First sibling of the C4 scenario (one child, `c4a1`). -/
def c4A : LBox := ⟨"A", 0, 80, 20, 30, [c4a1]⟩

/-- Second sibling of the C4 scenario (a leaf). -/
def c4B : LBox := ⟨"B", 18, 16, 20, 30, []⟩

/-- Parent of the C4 scenario siblings. -/
def c4P : LBox := ⟨"P", 0, 0, 0, 10, [c4A, c4B]⟩

theorem collision_resolution_c4_witness :
    resolveCollisions c4P = ({ c4P with children := [c4A, shiftBox (30 + VERTICAL_PADDING) c4B] } : LBox) ∧
    (allBoxes (shiftBox (30 + VERTICAL_PADDING) c4B)).map (fun b => b.x)
      = (allBoxes c4B).map (fun b => b.x + (30 + VERTICAL_PADDING)) ∧
    List.Pairwise (fun a b => ¬ boxesOverlap a b) (allBoxes (resolveCollisions c4P)) :=
  collision_resolution_c4 c4P c4A c4B
    rfl
    (by decide)
    (by decide)
    (by norm_num [getLowestDescendant, getLowestDescendantL, getHighestDescendant,
          getHighestDescendantL, c4A, c4B, c4a1, max_def])
    (adjustSiblings_single c4A c4a1 rfl (adjustSiblings_leaf c4a1 rfl))
    (adjustSiblings_leaf c4B rfl)
    (by norm_num [HorizSep, HorizSepL, allBoxes, allBoxesL, c4P, c4A, c4B, c4a1])
    (by norm_num [allBoxes, allBoxesL, c4P, c4A, c4B, c4a1])
